import Mathlib

/-!
Verification of the `pybackend` storage layer (ejhumphrey/mcfeeval,
`backend_server/pybackend/storage.py` and `backend_server/pybackend/utils.py`).

The development shallowly embeds the Python sources:

* `utils.uuid` computes an MD5 digest (RFC 1321, here over `Bytes`, machine
  words as `Nat` reduced mod 2^32) and then builds `uuid.UUID(hex=..., version=4)`,
  which forces the version nibble and the RFC 4122 variant bits.
* `storage.py` gives a `Storage` object over a `local` or `gcloud` backend.
  The local backend is a thin wrapper over the POSIX filesystem: path
  arithmetic follows `posixpath` (`join`, `dirname`, `basename`, `normpath`,
  `expanduser`, `abspath`) and directory creation follows CPython
  `os.makedirs`.  The filesystem is modelled as a set of directory path
  strings plus an association list from file path strings to byte contents;
  `open(p, "wb")`/`open(p, "rb")` become `FS.writeFile`/`FS.readFile`, which
  fail the way the OS calls do (missing parent, path is a directory, ...).
  The `gcloud` backend is an external SDK and is represented by an explicit
  `externalCall` marker, never exercised by the theorems.

Machine-level path aliasing (a trailing "/", "." or ".." components denoting
the same directory under different strings) is outside the resolution of a
string-keyed model; the theorems therefore speak about well-formed paths,
built from the `pathOfSegs` normal form.
-/

/-! ## Section 1: bytes and MD5 (hashlib.md5) -/

/-- A byte string: a list of byte values (each `< 256` for real inputs). -/
abbrev Bytes := List Nat

/-- 32-bit modular addition. -/
def add32 (a b : Nat) : Nat := (a + b) % 4294967296

/-- 32-bit complement (for words `< 2^32`). -/
def not32 (x : Nat) : Nat := 4294967295 ^^^ x

/-- 32-bit left rotation by `s` (for `0 < s < 32`). -/
def rotl32 (x s : Nat) : Nat :=
  ((x <<< s) % 4294967296) ||| ((x % 4294967296) >>> (32 - s))

/-- The 64 MD5 sine-table constants `K[i]` of RFC 1321. -/
def md5K : List Nat :=
  [0xd76aa478, 0xe8c7b756, 0x242070db, 0xc1bdceee,
   0xf57c0faf, 0x4787c62a, 0xa8304613, 0xfd469501,
   0x698098d8, 0x8b44f7af, 0xffff5bb1, 0x895cd7be,
   0x6b901122, 0xfd987193, 0xa679438e, 0x49b40821,
   0xf61e2562, 0xc040b340, 0x265e5a51, 0xe9b6c7aa,
   0xd62f105d, 0x02441453, 0xd8a1e681, 0xe7d3fbc8,
   0x21e1cde6, 0xc33707d6, 0xf4d50d87, 0x455a14ed,
   0xa9e3e905, 0xfcefa3f8, 0x676f02d9, 0x8d2a4c8a,
   0xfffa3942, 0x8771f681, 0x6d9d6122, 0xfde5380c,
   0xa4beea44, 0x4bdecfa9, 0xf6bb4b60, 0xbebfbc70,
   0x289b7ec6, 0xeaa127fa, 0xd4ef3085, 0x04881d05,
   0xd9d4d039, 0xe6db99e5, 0x1fa27cf8, 0xc4ac5665,
   0xf4292244, 0x432aff97, 0xab9423a7, 0xfc93a039,
   0x655b59c3, 0x8f0ccc92, 0xffeff47d, 0x85845dd1,
   0x6fa87e4f, 0xfe2ce6e0, 0xa3014314, 0x4e0811a1,
   0xf7537e82, 0xbd3af235, 0x2ad7d2bb, 0xeb86d391]

/-- The 64 MD5 per-round left-rotation amounts `s[i]`. -/
def md5S : List Nat :=
  [7, 12, 17, 22, 7, 12, 17, 22, 7, 12, 17, 22, 7, 12, 17, 22,
   5, 9, 14, 20, 5, 9, 14, 20, 5, 9, 14, 20, 5, 9, 14, 20,
   4, 11, 16, 23, 4, 11, 16, 23, 4, 11, 16, 23, 4, 11, 16, 23,
   6, 10, 15, 21, 6, 10, 15, 21, 6, 10, 15, 21, 6, 10, 15, 21]

/-- The running MD5 state `(a, b, c, d)`. -/
structure MD5State where
  a : Nat
  b : Nat
  c : Nat
  d : Nat
deriving DecidableEq

/-- The 16 little-endian 32-bit words of a 64-byte block. -/
def wordsOfBlock (blk : Bytes) : List Nat :=
  (List.range 16).map fun j =>
    blk.getD (4 * j) 0 + 256 * blk.getD (4 * j + 1) 0 +
      65536 * blk.getD (4 * j + 2) 0 + 16777216 * blk.getD (4 * j + 3) 0

/-- One of the 64 MD5 rounds, acting on state `st` with message words `M`. -/
def md5Round (M : List Nat) (st : MD5State) (i : Nat) : MD5State :=
  let f :=
    if i < 16 then (st.b &&& st.c) ||| (not32 st.b &&& st.d)
    else if i < 32 then (st.d &&& st.b) ||| (not32 st.d &&& st.c)
    else if i < 48 then st.b ^^^ st.c ^^^ st.d
    else st.c ^^^ (st.b ||| not32 st.d)
  let g :=
    if i < 16 then i
    else if i < 32 then (5 * i + 1) % 16
    else if i < 48 then (3 * i + 5) % 16
    else (7 * i) % 16
  let tmp := add32 (add32 (add32 st.a f) (md5K.getD i 0)) (M.getD g 0)
  ⟨st.d, add32 st.b (rotl32 tmp (md5S.getD i 0)), st.b, st.c⟩

/-- MD5 compression: absorb one 64-byte block into the state. -/
def md5Compress (st : MD5State) (blk : Bytes) : MD5State :=
  let r := (List.range 64).foldl (md5Round (wordsOfBlock blk)) st
  ⟨add32 st.a r.a, add32 st.b r.b, add32 st.c r.c, add32 st.d r.d⟩

/-- MD5 padding: a 0x80 byte, zeros to 56 mod 64, then the 64-bit
little-endian bit length. -/
def md5Pad (msg : Bytes) : Bytes :=
  let len := msg.length
  let z := (119 - len % 64) % 64
  let bitLen := (len * 8) % 18446744073709551616
  msg ++ 0x80 :: List.replicate z 0 ++
    (List.range 8).map fun i => (bitLen >>> (8 * i)) % 256

/-- Split a (padded) message into 64-byte blocks; `fuel` bounds the recursion
and any `fuel ≥ length` is enough. -/
def md5Blocks : Nat → Bytes → List Bytes
  | 0, _ => []
  | fuel + 1, msg => if msg = [] then [] else msg.take 64 :: md5Blocks fuel (msg.drop 64)

/-- The 4 little-endian bytes of a 32-bit word. -/
def le4 (x : Nat) : Bytes :=
  [x % 256, (x >>> 8) % 256, (x >>> 16) % 256, (x >>> 24) % 256]

/-- The 16-byte MD5 digest of a byte string (RFC 1321). -/
def md5Digest (msg : Bytes) : Bytes :=
  let padded := md5Pad msg
  let fin := (md5Blocks padded.length padded).foldl md5Compress
    ⟨0x67452301, 0xefcdab89, 0x98badcfe, 0x10325476⟩
  le4 fin.a ++ le4 fin.b ++ le4 fin.c ++ le4 fin.d

/-- Lowercase hexadecimal digit characters. -/
def hexChars : List Char := "0123456789abcdef".data

/-- `hashlib.md5(data).hexdigest()`: the digest as 32 lowercase hex characters. -/
def md5hexdigest (msg : Bytes) : String :=
  ⟨(md5Digest msg).foldr
    (fun b acc => hexChars.getD (b / 16) '0' :: hexChars.getD (b % 16) '0' :: acc) []⟩

/-! ## Section 2: utils.uuid (Python uuid.UUID with hex input, version 4) -/

/-- Value of one hexadecimal character. -/
def hexVal (c : Char) : Nat :=
  if '0' ≤ c ∧ c ≤ '9' then c.toNat - 48
  else if 'a' ≤ c ∧ c ≤ 'f' then c.toNat - 87
  else if 'A' ≤ c ∧ c ≤ 'F' then c.toNat - 55
  else 0

/-- The integer denoted by a hex string (most significant digit first). -/
def natOfHex (s : String) : Nat :=
  s.data.foldl (fun acc c => acc * 16 + hexVal c) 0

/-- All 128 bits set: the UUID ints are 128-bit values, on which Python
bigint `&~mask` coincides with `&&& (ones128 ^^^ mask)`. -/
def ones128 : Nat := 340282366920938463463374607431768211455

/-- `uuid.UUID(hex=h, version=4)` as a 128-bit integer: parse the 32 hex
digits, force the variant bits to RFC 4122 and the version nibble to 4
(CPython: `int &= ~(0xc000 << 48); int |= 0x8000 << 48;`
`int &= ~(0xf000 << 64); int |= version << 76`). -/
def uuidIntFromHexV4 (h : String) : Nat :=
  let n := natOfHex h
  let n := (n &&& (ones128 ^^^ (0xc000 <<< 48))) ||| (0x8000 <<< 48)
  (n &&& (ones128 ^^^ (0xf000 <<< 64))) ||| (4 <<< 76)

/-- `pybackend.utils.uuid` on a byte string: the MD5 hexdigest fed to
`uuid.UUID(hex=..., version=4)`, as the 128-bit UUID integer.  (For `str`
input the source first encodes to UTF-8 bytes; the byte-level function is
the common core.) -/
def uuid (data : Bytes) : Nat := uuidIntFromHexV4 (md5hexdigest data)

/-- `n` printed as `width` hex digits (most significant first). -/
def natToHexPad (n width : Nat) : String :=
  ⟨(List.range width).map fun j => hexChars.getD ((n >>> (4 * (width - 1 - j))) % 16) '0'⟩

/-- `UUID.hex`: the 32-hex-digit form of the identifier. -/
def uuidHex (data : Bytes) : String := natToHexPad (uuid data) 32

/-- `str(UUID)`: the canonical 8-4-4-4-12 dashed form, as produced when the
caller turns the identifier into a storage key. -/
def uuidStr (data : Bytes) : String :=
  let h := (uuidHex data).data
  ⟨h.take 8 ++ '-' :: (h.drop 8).take 4 ++ '-' :: (h.drop 12).take 4 ++
    '-' :: (h.drop 16).take 4 ++ '-' :: h.drop 20⟩

/-! ## Section 3: posixpath arithmetic -/

/-- Python `s.startswith('/')`. -/
def startsWithSep (s : String) : Prop := s.data.head? = some '/'

instance (s : String) : Decidable (startsWithSep s) := by
  unfold startsWithSep; infer_instance

/-- Python `s.endswith('/')`. -/
def endsWithSep (s : String) : Prop := s.data.getLast? = some '/'

instance (s : String) : Decidable (endsWithSep s) := by
  unfold endsWithSep; infer_instance

/-- `posixpath.join(a, b)`: `b` if absolute, else `a` and `b` glued with a
single separator unless `a` is empty or already ends in one. -/
def pjoin (a b : String) : String :=
  if startsWithSep b then b
  else if a = "" ∨ endsWithSep a then ⟨a.data ++ b.data⟩
  else ⟨a.data ++ '/' :: b.data⟩

/-- Everything up to and including the last separator of `cs`
(`p[:i]` with `i = p.rfind('/') + 1`; empty when there is no separator). -/
def headPart (cs : List Char) : List Char :=
  (cs.reverse.dropWhile fun c => c ≠ '/').reverse

/-- `posixpath.dirname`: the head part, stripped of trailing separators
unless it consists only of separators. -/
def dirnameL (cs : List Char) : List Char :=
  let head := headPart cs
  if head.any (fun c => decide (c ≠ '/')) then
    (head.reverse.dropWhile fun c => c = '/').reverse
  else head

/-- `posixpath.dirname` on strings. -/
def dirname (p : String) : String := ⟨dirnameL p.data⟩

/-- `posixpath.basename`: everything after the last separator. -/
def basenameL (cs : List Char) : List Char :=
  (cs.reverse.takeWhile fun c => c ≠ '/').reverse

/-- `posixpath.basename` on strings. -/
def basename (p : String) : String := ⟨basenameL p.data⟩

/-- `posixpath.split(p) = (dirname p, basename p)`. -/
def splitPath (p : String) : String × String := (dirname p, basename p)

/-- Python `p.split('/')` on character lists (`"".split` gives `[""]`,
adjacent separators give empty components). -/
def splitSlash : List Char → List (List Char)
  | [] => [[]]
  | c :: rest =>
    let r := splitSlash rest
    if c = '/' then [] :: r
    else
      match r with
      | s :: ss => (c :: s) :: ss
      | [] => [[c]]

/-- `'/'.join` on character-list components. -/
def joinCharSegs : List (List Char) → List Char
  | [] => []
  | [s] => s
  | s :: t :: rest => s ++ '/' :: joinCharSegs (t :: rest)

/-- `posixpath.normpath`: collapse separators and `.`, resolve `..`,
preserving the exact leading-slash count convention (2 kept, others 1). -/
def normpath (p : String) : String :=
  if p.data = [] then "."
  else
    let initSlashes : Nat :=
      if p.data.head? = some '/' then
        if p.data.take 2 = ['/', '/'] ∧ ¬ p.data.take 3 = ['/', '/', '/'] then 2 else 1
      else 0
    let newComps := (splitSlash p.data).foldl
      (fun acc comp =>
        if comp = [] ∨ comp = ['.'] then acc
        else if comp ≠ ['.', '.'] ∨ (initSlashes = 0 ∧ acc = []) ∨
            acc.getLast? = some ['.', '.'] then acc ++ [comp]
        else if acc ≠ [] then acc.dropLast
        else acc)
      []
    let path := List.replicate initSlashes '/' ++ joinCharSegs newComps
    if path = [] then "." else ⟨path⟩

/-- `posixpath.expanduser` with `HOME = home`: expands a leading `~` or
`~/...`; a `~user` form needs the password database, which is not part of
this model, and is returned unchanged (as Python does when the lookup
fails). -/
def expanduser (home p : String) : String :=
  if p.data.head? ≠ some '~' then p
  else
    let i := 1 + (((p.data.drop 1).findIdx? fun c => c = '/').getD (p.data.length - 1))
    if i ≠ 1 then p
    else
      let userhome := (home.data.reverse.dropWhile fun c => c = '/').reverse
      let res := userhome ++ p.data.drop 1
      if res = [] then "/" else ⟨res⟩

/-- `posixpath.abspath` relative to the working directory `cwd`. -/
def abspath (cwd p : String) : String :=
  if startsWithSep p then normpath p else normpath (pjoin cwd p)

/-! ## Section 4: the filesystem model and the OS calls used by storage.py -/

/-- Errors surfaced by the embedded code: Python exception kinds
(`ValueError`, `KeyError`, `TypeError`, `FileNotFoundError`,
`IsADirectoryError`, `NotADirectoryError`, `FileExistsError`), plus a marker
for calls into the external gcloud SDK, which this model does not follow,
and a marker for recursion fuel (never reached with adequate fuel). -/
inductive Err where
  | valueError : String → Err
  | keyError : String → Err
  | typeError : String → Err
  | fileNotFound : String → Err
  | isADirectory : String → Err
  | notADirectory : String → Err
  | fileExists : String → Err
  | externalCall : String → Err
  | fuelExhausted : Err
deriving DecidableEq

/-- A POSIX-flavoured filesystem state: the set of existing directory paths
and the existing regular files with their byte contents, both keyed by the
path strings the program uses. -/
structure FS where
  dirs : List String
  files : List (String × Bytes)
deriving DecidableEq

/-- The paths currently holding a regular file. -/
def fileKeys (fs : FS) : List String := fs.files.map Prod.fst

/-- `os.path.exists`: true for a directory or a file at `p`. -/
def FS.existsPath (fs : FS) (p : String) : Prop :=
  p ∈ fs.dirs ∨ p ∈ fileKeys fs

instance (fs : FS) (p : String) : Decidable (fs.existsPath p) := by
  unfold FS.existsPath; infer_instance

/-- `os.mkdir(p)`: fails if `p` exists or its parent is missing or is a
file; otherwise records the new directory.  A parent of `""` means a
relative path in the (existing) working directory. -/
def FS.osMkdir (fs : FS) (p : String) : Except Err FS :=
  if fs.existsPath p then .error (.fileExists p)
  else if dirname p = "" ∨ dirname p ∈ fs.dirs then
    .ok { fs with dirs := p :: fs.dirs }
  else if dirname p ∈ fileKeys fs then .error (.notADirectory p)
  else .error (.fileNotFound p)

/-- CPython `os.makedirs(name, exist_ok=False)`: split off the last
component (re-splitting once when the path ends in a separator), recursively
ensure the head exists (ignoring a `FileExistsError` from the recursion),
skip the final `mkdir` when the tail is `.`, else `mkdir(name)`.  `fuel`
bounds the recursion; any `fuel` past the component count is enough. -/
def osMakedirs : Nat → FS → String → Except Err FS
  | 0, _, _ => .error .fuelExhausted
  | fuel + 1, fs, name =>
    let ht := splitPath name
    let ht := if ht.2 = "" then splitPath ht.1 else ht
    if ht.1 ≠ "" ∧ ht.2 ≠ "" ∧ ¬ fs.existsPath ht.1 then
      match osMakedirs fuel fs ht.1 with
      | .ok fs1 => if ht.2 = "." then .ok fs1 else fs1.osMkdir name
      | .error (.fileExists _) => if ht.2 = "." then .ok fs else fs.osMkdir name
      | .error e => .error e
    else
      fs.osMkdir name

/-- `pybackend.storage._makedirs`: create `dpath` (with parents) unless it
already exists, and hand the path back. -/
def _makedirs (fs : FS) (dpath : String) : Except Err FS :=
  if fs.existsPath dpath then .ok fs
  else osMakedirs (dpath.data.length + 1) fs dpath

/-- `open(p, "wb").write(b)`: fails when `p` is a directory, or when the
parent directory is missing or is a file; otherwise replaces the contents
at `p`. -/
def FS.writeFile (fs : FS) (p : String) (b : Bytes) : Except Err FS :=
  if p ∈ fs.dirs then .error (.isADirectory p)
  else if dirname p = "" ∨ dirname p ∈ fs.dirs then
    .ok { fs with files := (p, b) :: fs.files.filter fun e => e.1 ≠ p }
  else if dirname p ∈ fileKeys fs then .error (.notADirectory p)
  else .error (.fileNotFound p)

/-- `open(p, "rb").read()`: the stored bytes; fails on a directory or a
missing file. -/
def FS.readFile (fs : FS) (p : String) : Except Err Bytes :=
  if p ∈ fs.dirs then .error (.isADirectory p)
  else
    match fs.files.lookup p with
    | some b => .ok b
    | none => .error (.fileNotFound p)

/-! ## Section 5: storage.py -/

/-- Modelled from the spec: the backend selector constants exported by
`pybackend/__init__.py`, which is not among the sources; `storage.py`
documents the backend as one of `['local', 'gcloud']` with default
`'gcloud'`, and the spec names the two backends LOCAL and CLOUD. -/
def LOCAL : String := "local"

/-- Modelled from the spec: see `LOCAL`. -/
def GCLOUD : String := "gcloud"

/-- `LocalData` (base of `LocalBlob` and `LocalBucket`): a name under a
root directory. -/
structure LocalData where
  name : String
  root : String
deriving DecidableEq

/-- `LocalData.path`: `os.path.join(self.root, self.name)`. -/
def LocalData.path (d : LocalData) : String := pjoin d.root d.name

/-- `LocalBlob.upload_from_string`: write the bytestring to `self.path`
(the `content_type` argument is unused in the source). -/
def LocalBlob.upload_from_string (blob : LocalData) (fs : FS) (bstream : Bytes)
    (_content_type : String) : Except Err FS :=
  fs.writeFile blob.path bstream

/-- `LocalBlob.download_as_string`: read the bytes at `self.path`. -/
def LocalBlob.download_as_string (blob : LocalData) (fs : FS) : Except Err Bytes :=
  fs.readFile blob.path

/-- `LocalBucket.blob(name)`: a `LocalBlob` rooted at `_makedirs(self.path)`
(creating the bucket directory is a side effect of asking for the blob). -/
def LocalBucket.blob (bucket : LocalData) (fs : FS) (name : String) :
    Except Err (LocalData × FS) :=
  match _makedirs fs bucket.path with
  | .ok fs1 => .ok (⟨name, bucket.path⟩, fs1)
  | .error e => .error e

/-- `LocalBucket.get_blob(name)`: a `LocalBlob` rooted at `self.path`,
with no directory creation. -/
def LocalBucket.get_blob (bucket : LocalData) (name : String) : LocalData :=
  ⟨name, bucket.path⟩

/-- `LocalClient`: the owner id and the root directory for binary data. -/
structure LocalClient where
  project_id : String
  root_dir : String
deriving DecidableEq

/-- `LocalClient.__init__`: stores `project_id` and `_makedirs(root_dir)`. -/
def LocalClient.init (project_id root_dir : String) (fs : FS) :
    Except Err (LocalClient × FS) :=
  match _makedirs fs root_dir with
  | .ok fs1 => .ok (⟨project_id, root_dir⟩, fs1)
  | .error e => .error e

/-- `LocalClient.get_bucket(name)`: a `LocalBucket` for the name under the
client root directory. -/
def LocalClient.get_bucket (c : LocalClient) (name : String) : LocalData :=
  ⟨name, c.root_dir⟩

/-- The constructors the `BACKENDS` dict dispatches to. -/
inductive BackendCtor where
  | gcloudClientCtor : BackendCtor
  | localClientCtor : BackendCtor
deriving DecidableEq

/-- `BACKENDS = dict with GCLOUD ↦ gcloud.storage.Client, LOCAL ↦ LocalClient`. -/
def BACKENDS : List (String × BackendCtor) :=
  [(GCLOUD, .gcloudClientCtor), (LOCAL, .localClientCtor)]

/-- A constructed client handle: either the external gcloud SDK client or a
`LocalClient`. -/
inductive ClientVal where
  | gcloudClient : (project_id : String) → ClientVal
  | localClient : LocalClient → ClientVal
deriving DecidableEq

/-- The `Storage` object: the bucket name, the owner id, the backend
selector (`self._backend`) and, for the local backend, the resolved
`root_dir` entry of `self._backend_kwargs` (whose `project_id` entry always
equals the `project_id` field and is left implicit). -/
structure Storage where
  name : String
  project_id : String
  backend : String
  root_dir : Option String
deriving DecidableEq

/-- `Storage.__init__(name, project_id, backend, local_dir)`: reject a
local backend without `local_dir`; otherwise store the configuration, with
`root_dir = os.path.abspath(os.path.expanduser(local_dir))` when the
backend is LOCAL.  `cwd` and `home` stand for the process environment that
`abspath`/`expanduser` consult; the constructor touches no filesystem
state. -/
def Storage.init (name project_id backend : String) (local_dir : Option String)
    (cwd home : String) : Except Err Storage :=
  if backend = LOCAL ∧ local_dir = none then
    .error (.valueError ("`local_dir` must be given if backend is '" ++ LOCAL ++ "'"))
  else
    .ok { name, project_id, backend,
          root_dir :=
            if backend = LOCAL then local_dir.map fun d => abspath cwd (expanduser home d)
            else none }

/-- The `Storage.client` property: a fresh handle from the stored
configuration on every access, `BACKENDS[self._backend](**self._backend_kwargs)`.
An unknown backend is a dictionary `KeyError`; the local constructor creates
the root directory; the gcloud constructor is external SDK code with no
local filesystem effect. -/
def Storage.client (st : Storage) (fs : FS) : Except Err (ClientVal × FS) :=
  match BACKENDS.lookup st.backend with
  | none => .error (.keyError st.backend)
  | some .gcloudClientCtor => .ok (.gcloudClient st.project_id, fs)
  | some .localClientCtor =>
    match st.root_dir with
    | none => .error (.typeError "root_dir")
    | some root =>
      match LocalClient.init st.project_id root fs with
      | .ok cfs => .ok (.localClient cfs.1, cfs.2)
      | .error e => .error e

/-- `Storage.upload(fdata, key)`: fresh client, `get_bucket(self.name)`,
`bucket.blob(key)`, `blob.upload_from_string(fdata, "application/octet-stream")`.
Returns the (unchanged) object, the filesystem as left at exit, and the
exception if one was raised. -/
def Storage.upload (st : Storage) (fs : FS) (fdata : Bytes) (key : String) :
    Storage × FS × Option Err :=
  (st,
    match st.client fs with
    | .error e => (fs, some e)
    | .ok (.gcloudClient _, fs1) => (fs1, some (.externalCall "gcloud.storage"))
    | .ok (.localClient c, fs1) =>
      let bucket := c.get_bucket st.name
      match LocalBucket.blob bucket fs1 key with
      | .error e => (fs1, some e)
      | .ok (blob, fs2) =>
        match LocalBlob.upload_from_string blob fs2 fdata "application/octet-stream" with
        | .error e => (fs2, some e)
        | .ok fs3 => (fs3, none))

/-- `Storage.download(key)`: fresh client, `get_bucket(self.name)`,
`bucket.get_blob(key)`, `blob.download_as_string()`.  Returns the
(unchanged) object, the filesystem as left at exit, and the bytes or the
exception. -/
def Storage.download (st : Storage) (fs : FS) (key : String) :
    Storage × FS × Except Err Bytes :=
  (st,
    match st.client fs with
    | .error e => (fs, .error e)
    | .ok (.gcloudClient _, fs1) => (fs1, .error (.externalCall "gcloud.storage"))
    | .ok (.localClient c, fs1) =>
      let bucket := c.get_bucket st.name
      let blob := LocalBucket.get_blob bucket key
      (fs1, LocalBlob.download_as_string blob fs1))

/-- The composite the round-trip properties quantify: upload, then download
on the returned object; an upload exception aborts the sequence. -/
def uploadThenDownload (st : Storage) (fs : FS) (b : Bytes) (k : String) :
    Except Err Bytes :=
  match st.upload fs b k with
  | (st1, fs1, none) => (st1.download fs1 k).2.2
  | (_, _, some e) => .error e

/-- Decidable equality for `Except`, so that runs of the embedded code can
be compared by evaluation. -/
instance {ε α : Type} [DecidableEq ε] [DecidableEq α] : DecidableEq (Except ε α) := fun x y =>
  match x, y with
  | .ok a, .ok b =>
    if h : a = b then .isTrue (by rw [h])
    else .isFalse (by intro hh; injection hh; contradiction)
  | .ok _, .error _ => .isFalse (by intro h; exact Except.noConfusion h)
  | .error _, .ok _ => .isFalse (by intro h; exact Except.noConfusion h)
  | .error e, .error f =>
    if h : e = f then .isTrue (by rw [h])
    else .isFalse (by intro hh; injection hh; contradiction)

/-! ## Section 6: well-formed paths

A well-formed absolute path is `/seg1/.../segn` with every segment
non-empty, separator-free and different from `.` and `..`: exactly the
paths free of the aliasing a string-keyed filesystem model cannot see. -/

/-- A well-formed path segment. -/
def cleanSeg (s : List Char) : Prop :=
  s ≠ [] ∧ '/' ∉ s ∧ s ≠ ['.'] ∧ s ≠ ['.', '.']

instance (s : List Char) : Decidable (cleanSeg s) := by
  unfold cleanSeg; infer_instance

/-- All segments well formed. -/
def cleanSegs (A : List (List Char)) : Prop := ∀ s ∈ A, cleanSeg s

instance (A : List (List Char)) : Decidable (cleanSegs A) := by
  unfold cleanSegs; infer_instance

/-- The character data of the absolute path with the given segments
(`[]` gives the root `/`). -/
def pathData (A : List (List Char)) : List Char := '/' :: joinCharSegs A

/-- The absolute path string with the given segments. -/
def pathOfSegs (A : List (List Char)) : String := ⟨pathData A⟩

theorem joinCharSegs_cons_of_ne_nil (s : List Char) (A : List (List Char)) (h : A ≠ []) :
    joinCharSegs (s :: A) = s ++ '/' :: joinCharSegs A := by
  cases A with
  | nil => exact absurd rfl h
  | cons t rest => rfl

theorem joinCharSegs_concat (A : List (List Char)) (s : List Char) (h : A ≠ []) :
    joinCharSegs (A ++ [s]) = joinCharSegs A ++ '/' :: s := by
  induction A with
  | nil => exact absurd rfl h
  | cons a A ih =>
    cases A with
    | nil => rfl
    | cons b B =>
      rw [List.cons_append, joinCharSegs_cons_of_ne_nil a ((b :: B) ++ [s]) (by simp),
        joinCharSegs_cons_of_ne_nil a (b :: B) (by simp), ih (by simp)]
      simp

theorem pathData_concat (A : List (List Char)) (s : List Char) (h : A ≠ []) :
    pathData (A ++ [s]) = pathData A ++ '/' :: s := by
  unfold pathData
  rw [joinCharSegs_concat A s h]
  rfl

theorem dropWhile_append_of_forall {α : Type} {p : α → Bool} (xs ys : List α)
    (h : ∀ x ∈ xs, p x = true) :
    (xs ++ ys).dropWhile p = ys.dropWhile p := by
  induction xs with
  | nil => rfl
  | cons a xs ih =>
    rw [List.cons_append, List.dropWhile_cons]
    simp only [h a (by simp)]
    exact ih fun x hx => h x (by simp [hx])

theorem takeWhile_append_of_forall {α : Type} {p : α → Bool} (xs ys : List α)
    (h : ∀ x ∈ xs, p x = true) :
    (xs ++ ys).takeWhile p = xs ++ ys.takeWhile p := by
  induction xs with
  | nil => rfl
  | cons a xs ih =>
    rw [List.cons_append, List.takeWhile_cons]
    simp only [h a (by simp), if_true]
    rw [ih fun x hx => h x (by simp [hx])]
    simp

/-- The non-root segment paths contain a non-separator character. -/
theorem joinCharSegs_exists_ne_sep (A : List (List Char)) (hA : cleanSegs A)
    (hne : A ≠ []) : ∃ c ∈ joinCharSegs A, c ≠ '/' := by
  cases A with
  | nil => exact absurd rfl hne
  | cons a A =>
    obtain ⟨ha1, ha2, -, -⟩ := hA a (by simp)
    obtain ⟨c, cs, rfl⟩ : ∃ c cs, a = c :: cs := by
      cases a with
      | nil => exact absurd rfl ha1
      | cons c cs => exact ⟨c, cs, rfl⟩
    refine ⟨c, ?_, ?_⟩
    · cases A with
      | nil => simp [joinCharSegs]
      | cons b B => rw [joinCharSegs_cons_of_ne_nil (c :: cs) (b :: B) (by simp)]; simp
    · intro hc
      exact ha2 (by simp [hc])

/-- The non-root segment paths do not end in a separator. -/
theorem joinCharSegs_reverse_head (A : List (List Char)) (hA : cleanSegs A)
    (hne : A ≠ []) :
    ∃ c rest, (joinCharSegs A).reverse = c :: rest ∧ c ≠ '/' := by
  obtain ⟨B, s, hBs⟩ := (List.eq_nil_or_concat A).resolve_left hne
  rw [List.concat_eq_append] at hBs
  subst hBs
  obtain ⟨hs1, hs2, -, -⟩ := hA s (by simp)
  obtain ⟨c, cs, hc⟩ : ∃ c cs, s.reverse = c :: cs := by
    cases hs : s.reverse with
    | nil => exact absurd (by simpa using congrArg List.reverse hs) hs1
    | cons c cs => exact ⟨c, cs, rfl⟩
  have hcmem : c ∈ s := by
    have : c ∈ s.reverse := by rw [hc]; simp
    simpa using this
  cases B with
  | nil => exact ⟨c, cs, by simpa [joinCharSegs] using hc, fun h => hs2 (h ▸ hcmem)⟩
  | cons b B' =>
    refine ⟨c, cs ++ '/' :: (joinCharSegs (b :: B')).reverse, ?_, fun h => hs2 (h ▸ hcmem)⟩
    rw [joinCharSegs_concat (b :: B') s (by simp), List.reverse_append, List.reverse_cons,
      hc]
    simp

theorem string_mk_eq_iff (s t : List Char) : (⟨s⟩ : String) = ⟨t⟩ ↔ s = t := by
  constructor
  · intro h
    exact congrArg String.data h
  · intro h
    rw [h]

theorem dirname_pathOfSegs_concat (A : List (List Char)) (s : List Char)
    (hA : cleanSegs (A ++ [s])) :
    dirname (pathOfSegs (A ++ [s])) = pathOfSegs A := by
  obtain ⟨-, hs2, -, -⟩ := hA s (by simp)
  have hall : ∀ x ∈ s.reverse, (fun c => decide (c ≠ '/')) x = true := by
    intro x hx
    simp only [decide_eq_true_eq]
    intro hx'
    exact hs2 (by rw [← hx']; exact List.mem_reverse.mp hx)
  unfold dirname pathOfSegs
  rw [string_mk_eq_iff]
  cases A with
  | nil =>
    show dirnameL ('/' :: joinCharSegs [s]) = pathData []
    have hj : joinCharSegs [s] = s := rfl
    rw [hj]
    unfold dirnameL headPart
    rw [show ('/' :: s).reverse = s.reverse ++ ['/'] by simp,
      dropWhile_append_of_forall _ _ hall]
    simp [pathData, joinCharSegs]
  | cons a A' =>
    have hA' : cleanSegs (a :: A') := fun t ht => hA t (List.mem_append_left [s] ht)
    have hne : (a : List Char) :: A' ≠ [] := by simp
    rw [pathData_concat (a :: A') s hne]
    unfold dirnameL headPart
    rw [show (pathData (a :: A') ++ '/' :: s).reverse
        = s.reverse ++ '/' :: (pathData (a :: A')).reverse by simp,
      dropWhile_append_of_forall _ _ hall,
      show List.dropWhile (fun c => decide (c ≠ '/')) ('/' :: (pathData (a :: A')).reverse)
        = '/' :: (pathData (a :: A')).reverse by simp [List.dropWhile_cons],
      show ('/' :: (pathData (a :: A')).reverse).reverse = pathData (a :: A') ++ ['/'] by simp]
    obtain ⟨c, hc, hcne⟩ := joinCharSegs_exists_ne_sep (a :: A') hA' hne
    have hany : (pathData (a :: A') ++ ['/']).any (fun c => decide (c ≠ '/')) = true := by
      simp only [List.any_eq_true]
      exact ⟨c, by simp [pathData, hc], by simpa using hcne⟩
    rw [if_pos hany]
    obtain ⟨d, rest, hdrest, hdne⟩ := joinCharSegs_reverse_head (a :: A') hA' hne
    rw [show (pathData (a :: A') ++ ['/']).reverse = '/' :: (pathData (a :: A')).reverse by simp,
      List.dropWhile_cons]
    simp only [decide_eq_true_eq, if_pos rfl]
    rw [show (pathData (a :: A')).reverse = (joinCharSegs (a :: A')).reverse ++ ['/'] by
        simp [pathData],
      hdrest]
    rw [show ((d :: rest) ++ ['/'] : List Char) = d :: (rest ++ ['/']) by simp,
      List.dropWhile_cons]
    simp only [hdne, decide_eq_false_iff_not, decide_eq_true_eq, if_neg (by simpa using hdne)]
    rw [show (d :: (rest ++ ['/']) : List Char) = (d :: rest) ++ ['/'] by simp, ← hdrest]
    simp [pathData]

theorem basename_pathOfSegs_concat (A : List (List Char)) (s : List Char)
    (hA : cleanSegs (A ++ [s])) :
    basename (pathOfSegs (A ++ [s])) = ⟨s⟩ := by
  obtain ⟨-, hs2, -, -⟩ := hA s (by simp)
  have hall : ∀ x ∈ s.reverse, (fun c => decide (c ≠ '/')) x = true := by
    intro x hx
    simp only [decide_eq_true_eq]
    intro hx'
    exact hs2 (by rw [← hx']; exact List.mem_reverse.mp hx)
  unfold basename pathOfSegs
  rw [string_mk_eq_iff]
  unfold basenameL
  cases A with
  | nil =>
    show ((('/' :: joinCharSegs [s]).reverse.takeWhile fun c => decide (c ≠ '/')).reverse) = s
    have hj : joinCharSegs [s] = s := rfl
    rw [hj, show ('/' :: s).reverse = s.reverse ++ ['/'] by simp,
      takeWhile_append_of_forall _ _ hall]
    simp [List.takeWhile_cons]
  | cons a A' =>
    rw [pathData_concat (a :: A') s (by simp),
      show (pathData (a :: A') ++ '/' :: s).reverse
        = s.reverse ++ '/' :: (pathData (a :: A')).reverse by simp,
      takeWhile_append_of_forall _ _ hall]
    simp [List.takeWhile_cons]

theorem pjoin_pathOfSegs (A : List (List Char)) (s : List Char)
    (hA : cleanSegs A) (hs : cleanSeg s) :
    pjoin (pathOfSegs A) ⟨s⟩ = pathOfSegs (A ++ [s]) := by
  obtain ⟨hs1, hs2, -, -⟩ := hs
  have hstart : ¬ startsWithSep ⟨s⟩ := by
    unfold startsWithSep
    cases s with
    | nil => exact absurd rfl hs1
    | cons c cs =>
      simp only [List.head?_cons, Option.some.injEq]
      intro h
      exact hs2 (by simp [h])
  unfold pjoin
  rw [if_neg hstart]
  cases A with
  | nil =>
    have : (pathOfSegs [] = "" ∨ endsWithSep (pathOfSegs [])) := by
      right
      unfold endsWithSep pathOfSegs pathData joinCharSegs
      simp
    rw [if_pos this]
    unfold pathOfSegs
    rw [string_mk_eq_iff]
    rfl
  | cons a A' =>
    have hne : (a : List Char) :: A' ≠ [] := by simp
    obtain ⟨d, rest, hdrest, hdne⟩ := joinCharSegs_reverse_head (a :: A') hA hne
    have hcond : ¬ (pathOfSegs (a :: A') = "" ∨ endsWithSep (pathOfSegs (a :: A'))) := by
      rintro (h | h)
      · exact absurd (congrArg String.data h) (by simp [pathOfSegs, pathData])
      · unfold endsWithSep pathOfSegs at h
        rw [show (pathData (a :: A')).getLast? = (pathData (a :: A')).reverse.head? by
            simp [List.head?_reverse]] at h
        rw [show (pathData (a :: A')).reverse = (joinCharSegs (a :: A')).reverse ++ ['/'] by
            simp [pathData], hdrest] at h
        simp only [List.cons_append, List.head?_cons, Option.some.injEq] at h
        exact hdne h
    rw [if_neg hcond]
    unfold pathOfSegs
    rw [string_mk_eq_iff, pathData_concat (a :: A') s hne]

theorem joinCharSegs_take_length_le (A : List (List Char)) (i : Nat) :
    (joinCharSegs (A.take i)).length ≤ (joinCharSegs A).length := by
  induction A generalizing i with
  | nil => simp
  | cons a A ih =>
    cases i with
    | zero => simp [joinCharSegs]
    | succ j =>
      rw [List.take_succ_cons]
      cases A with
      | nil => simp
      | cons b B =>
        cases j with
        | zero =>
          rw [List.take_zero, joinCharSegs_cons_of_ne_nil a (b :: B) (by simp)]
          simp [joinCharSegs]
        | succ k =>
          rw [List.take_succ_cons,
            joinCharSegs_cons_of_ne_nil a (b :: B.take k) (by simp),
            joinCharSegs_cons_of_ne_nil a (b :: B) (by simp)]
          have h := ih (k + 1)
          rw [List.take_succ_cons] at h
          simp only [List.length_append, List.length_cons] at h ⊢
          omega

theorem pathData_take_length_le (A : List (List Char)) (i : Nat) :
    (pathData (A.take i)).length ≤ (pathData A).length := by
  unfold pathData
  simpa using joinCharSegs_take_length_le A i

theorem pathData_concat_length_lt (A : List (List Char)) (s : List Char) (hs : s ≠ []) :
    (pathData A).length < (pathData (A ++ [s])).length := by
  cases A with
  | nil =>
    cases s with
    | nil => exact absurd rfl hs
    | cons c cs => simp [pathData, joinCharSegs]
  | cons a A' =>
    rw [pathData_concat (a :: A') s (by simp)]
    simp only [List.length_append, List.length_cons]
    omega

theorem pathOfSegs_take_ne_concat (A : List (List Char)) (s : List Char) (i : Nat)
    (hs : s ≠ []) : pathOfSegs (A.take (i + 1)) ≠ pathOfSegs (A ++ [s]) := by
  intro h
  have hd := congrArg (fun q => q.data.length) h
  simp only [pathOfSegs] at hd
  have h1 := pathData_take_length_le A (i + 1)
  have h2 := pathData_concat_length_lt A s hs
  omega

theorem take_append_singleton_eq (A : List (List Char)) (t : List Char) (i : Nat)
    (hi : i < A.length) : (A ++ [t]).take (i + 1) = A.take (i + 1) := by
  rw [List.take_append_eq_append_take]
  have h0 : i + 1 - A.length = 0 := by omega
  simp [h0]

theorem segs_length_le_pathData_length (A : List (List Char)) :
    A.length ≤ (pathData A).length := by
  unfold pathData
  simp only [List.length_cons]
  induction A with
  | nil => simp
  | cons a A ih =>
    cases A with
    | nil => simp [joinCharSegs]
    | cons b B =>
      rw [joinCharSegs_cons_of_ne_nil a (b :: B) (by simp)]
      simp only [List.length_cons, List.length_append] at ih ⊢
      omega

theorem pathOfSegs_ne_empty (A : List (List Char)) : pathOfSegs A ≠ "" := by
  intro h
  exact absurd (congrArg String.data h) (by simp [pathOfSegs, pathData])

theorem string_mk_ne_of_ne {s t : List Char} (h : s ≠ t) : (⟨s⟩ : String) ≠ ⟨t⟩ :=
  fun hh => h (congrArg String.data hh)

theorem fileKeys_congr {fs1 fs2 : FS} (h : fs1.files = fs2.files) :
    fileKeys fs1 = fileKeys fs2 := by
  unfold fileKeys
  rw [h]

theorem osMakedirs_clean (fuel : Nat) :
    ∀ (A : List (List Char)) (fs : FS),
    cleanSegs A → A ≠ [] → A.length ≤ fuel →
    "/" ∈ fs.dirs →
    (∀ p ∈ fs.dirs, p ∉ fileKeys fs) →
    (∀ i, i < A.length → pathOfSegs (A.take (i + 1)) ∉ fileKeys fs) →
    ¬ fs.existsPath (pathOfSegs A) →
    ∃ fs', osMakedirs fuel fs (pathOfSegs A) = .ok fs' ∧
      fs'.files = fs.files ∧
      (∀ x ∈ fs.dirs, x ∈ fs'.dirs) ∧
      (∀ x ∈ fs'.dirs, x ∈ fs.dirs ∨ ∃ i, i < A.length ∧ x = pathOfSegs (A.take (i + 1))) ∧
      pathOfSegs A ∈ fs'.dirs ∧
      (∀ i, i < A.length → pathOfSegs (A.take (i + 1)) ∈ fs'.dirs ∨
        ∃ j, i ≤ j ∧ j < A.length ∧ fs.existsPath (pathOfSegs (A.take (j + 1)))) := by
  induction fuel with
  | zero =>
    intro A fs hclean hne hlen hroot hdisj hcol hnex
    cases A with
    | nil => exact absurd rfl hne
    | cons a A' => simp at hlen
  | succ f ih =>
    intro A fs hclean hne hlen hroot hdisj hcol hnex
    obtain ⟨B, s, hBs⟩ := (List.eq_nil_or_concat A).resolve_left hne
    rw [List.concat_eq_append] at hBs
    subst hBs
    obtain ⟨hs1, hs2, hs3, hs4⟩ := hclean s (by simp)
    have hBclean : cleanSegs B := fun t ht => hclean t (List.mem_append_left [s] ht)
    have htail_ne : (⟨s⟩ : String) ≠ "" := string_mk_ne_of_ne (by simpa using hs1)
    have htail_nd : (⟨s⟩ : String) ≠ "." := string_mk_ne_of_ne (by simpa using hs3)
    have hhead_ne : pathOfSegs B ≠ "" := pathOfSegs_ne_empty B
    have hsplit : splitPath (pathOfSegs (B ++ [s])) = (pathOfSegs B, ⟨s⟩) := by
      unfold splitPath
      rw [dirname_pathOfSegs_concat B s hclean, basename_pathOfSegs_concat B s hclean]
    unfold FS.existsPath at hnex
    push_neg at hnex
    obtain ⟨hnd, hnf⟩ := hnex
    have hwhole : (B ++ [s]).take (B.length + 1) = B ++ [s] := by
      apply List.take_of_length_le
      simp
    by_cases hE : fs.existsPath (pathOfSegs B)
    · -- the parent already exists: a single mkdir
      have hPB : pathOfSegs B ∈ fs.dirs := by
        rcases hE with h | h
        · exact h
        · exfalso
          cases B with
          | nil => exact hdisj "/" hroot h
          | cons b B' =>
            have htk : ((b :: B') ++ [s]).take (B'.length + 1) = b :: B' := by
              rw [List.take_append_eq_append_take]
              simp
            have hlt : B'.length < ((b :: B') ++ [s]).length := by
              simp only [List.length_append, List.length_cons, List.length_nil]
              omega
            have := hcol B'.length hlt
            rw [htk] at this
            exact this h
      refine ⟨⟨pathOfSegs (B ++ [s]) :: fs.dirs, fs.files⟩, ?_, rfl, ?_, ?_, ?_, ?_⟩
      · simp only [osMakedirs, hsplit, if_neg htail_ne]
        rw [if_neg (by
          intro hcond
          exact hcond.2.2 hE)]
        unfold FS.osMkdir
        rw [if_neg (by unfold FS.existsPath; push_neg; exact ⟨hnd, hnf⟩),
          dirname_pathOfSegs_concat B s hclean, if_pos (Or.inr hPB)]
      · intro x hx
        simp [hx]
      · intro x hx
        rcases List.mem_cons.mp hx with h | h
        · right
          exact ⟨B.length, by simp, by rw [hwhole, h]⟩
        · exact Or.inl h
      · simp
      · intro i hi
        by_cases hiB : i = B.length
        · left
          subst hiB
          rw [hwhole]
          simp
        · right
          have hiB' : i < B.length := by
            simp only [List.length_append, List.length_cons, List.length_nil] at hi
            omega
          refine ⟨B.length - 1, by omega, by simp; omega, ?_⟩
          have hB0 : B.length - 1 + 1 = B.length := by omega
          have htk : (B ++ [s]).take (B.length - 1 + 1) = B := by
            rw [hB0, List.take_append_eq_append_take]
            simp
          rw [htk]
          exact hE
    · -- the parent is missing: recurse, then mkdir
      have hBne : B ≠ [] := by
        intro h
        subst h
        exact hE (Or.inl (by simpa [pathOfSegs, pathData, joinCharSegs] using hroot))
      have hcolB : ∀ i, i < B.length → pathOfSegs (B.take (i + 1)) ∉ fileKeys fs := by
        intro i hi
        have htk : (B ++ [s]).take (i + 1) = B.take (i + 1) := by
          rw [List.take_append_eq_append_take]
          have h0 : i + 1 - B.length = 0 := by omega
          simp [h0]
        have hlt : i < (B ++ [s]).length := by
          simp only [List.length_append, List.length_cons, List.length_nil]
          omega
        have := hcol i hlt
        rwa [htk] at this
      obtain ⟨fs1, hok1, hfiles1, hsub1, hchar1, hmem1, hpre1⟩ :=
        ih B fs hBclean hBne (by simp at hlen; omega) hroot hdisj hcolB hE
      have hkeys1 : fileKeys fs1 = fileKeys fs := fileKeys_congr hfiles1
      have hname_nd1 : pathOfSegs (B ++ [s]) ∉ fs1.dirs := by
        intro hx
        rcases hchar1 _ hx with h | ⟨i, hi, h⟩
        · exact hnd h
        · exact pathOfSegs_take_ne_concat B s i hs1 h.symm
      refine ⟨⟨pathOfSegs (B ++ [s]) :: fs1.dirs, fs1.files⟩, ?_, by simpa using hfiles1,
        ?_, ?_, ?_, ?_⟩
      · simp only [osMakedirs, hsplit, if_neg htail_ne]
        rw [if_pos ⟨hhead_ne, htail_ne, hE⟩, hok1]
        show (if (⟨s⟩ : String) = "." then Except.ok fs1
          else fs1.osMkdir (pathOfSegs (B ++ [s]))) = _
        rw [if_neg htail_nd]
        unfold FS.osMkdir
        rw [if_neg (by
            unfold FS.existsPath
            push_neg
            exact ⟨hname_nd1, by rw [hkeys1]; exact hnf⟩),
          dirname_pathOfSegs_concat B s hclean, if_pos (Or.inr hmem1)]
      · intro x hx
        simp [hsub1 x hx]
      · intro x hx
        rcases List.mem_cons.mp hx with h | h
        · right
          exact ⟨B.length, by simp, by rw [hwhole, h]⟩
        · rcases hchar1 x h with h2 | ⟨i, hi, h2⟩
          · exact Or.inl h2
          · right
            refine ⟨i, ?_, ?_⟩
            · simp only [List.length_append, List.length_cons, List.length_nil]
              omega
            · rw [List.take_append_eq_append_take]
              have h0 : i + 1 - B.length = 0 := by omega
              simp [h0, h2]
      · simp
      · intro i hi
        by_cases hiB : i = B.length
        · left
          subst hiB
          rw [hwhole]
          simp
        · have hiB' : i < B.length := by
            simp only [List.length_append, List.length_cons, List.length_nil] at hi
            omega
          have htki : (B ++ [s]).take (i + 1) = B.take (i + 1) :=
            take_append_singleton_eq B s i hiB'
          rcases hpre1 i hiB' with h | ⟨j, hij, hjB, hex⟩
          · left
            rw [htki]
            simp [h]
          · right
            refine ⟨j, hij, by simp; omega, ?_⟩
            rw [take_append_singleton_eq B s j hjB]
            exact hex

theorem pathOfSegs_nil : pathOfSegs [] = "/" := by decide

theorem existsPath_pathOfSegs_dir (A : List (List Char)) (fs : FS)
    (hroot : "/" ∈ fs.dirs)
    (hdisj : ∀ p ∈ fs.dirs, p ∉ fileKeys fs)
    (hcol : ∀ i, i < A.length → pathOfSegs (A.take (i + 1)) ∉ fileKeys fs)
    (hEx : fs.existsPath (pathOfSegs A)) : pathOfSegs A ∈ fs.dirs := by
  rcases hEx with h | h
  · exact h
  · exfalso
    cases A with
    | nil =>
      rw [pathOfSegs_nil] at h
      exact hdisj "/" hroot h
    | cons a A' =>
      have htk : (a :: A').take (A'.length + 1) = a :: A' := by
        apply List.take_of_length_le
        simp
      have hlt : A'.length < (a :: A').length := by simp
      have := hcol A'.length hlt
      rw [htk] at this
      exact this h

theorem _makedirs_clean (A : List (List Char)) (fs : FS)
    (hclean : cleanSegs A)
    (hroot : "/" ∈ fs.dirs)
    (hdisj : ∀ p ∈ fs.dirs, p ∉ fileKeys fs)
    (hcol : ∀ i, i < A.length → pathOfSegs (A.take (i + 1)) ∉ fileKeys fs) :
    ∃ fs', _makedirs fs (pathOfSegs A) = .ok fs' ∧
      fs'.files = fs.files ∧
      (∀ x ∈ fs.dirs, x ∈ fs'.dirs) ∧
      (∀ x ∈ fs'.dirs, x ∈ fs.dirs ∨ ∃ i, i < A.length ∧ x = pathOfSegs (A.take (i + 1))) ∧
      pathOfSegs A ∈ fs'.dirs ∧ "/" ∈ fs'.dirs := by
  unfold _makedirs
  by_cases hEx : fs.existsPath (pathOfSegs A)
  · rw [if_pos hEx]
    exact ⟨fs, rfl, rfl, fun x hx => hx, fun x hx => Or.inl hx,
      existsPath_pathOfSegs_dir A fs hroot hdisj hcol hEx, hroot⟩
  · rw [if_neg hEx]
    have hAne : A ≠ [] := by
      intro h
      subst h
      rw [pathOfSegs_nil] at hEx
      exact hEx (Or.inl hroot)
    have hlen : A.length ≤ (pathOfSegs A).data.length + 1 := by
      have := segs_length_le_pathData_length A
      simp only [pathOfSegs] at *
      omega
    obtain ⟨fs', hok, hfiles, hsub, hchar, hmem, -⟩ :=
      osMakedirs_clean ((pathOfSegs A).data.length + 1) A fs hclean hAne hlen hroot hdisj
        hcol hEx
    exact ⟨fs', hok, hfiles, hsub, hchar, hmem, hsub _ hroot⟩

theorem disj_preserved (A : List (List Char)) (fs fs' : FS)
    (hdisj : ∀ p ∈ fs.dirs, p ∉ fileKeys fs)
    (hcol : ∀ i, i < A.length → pathOfSegs (A.take (i + 1)) ∉ fileKeys fs)
    (hfiles : fs'.files = fs.files)
    (hchar : ∀ x ∈ fs'.dirs, x ∈ fs.dirs ∨ ∃ i, i < A.length ∧ x = pathOfSegs (A.take (i + 1))) :
    ∀ p ∈ fs'.dirs, p ∉ fileKeys fs' := by
  intro p hp
  rw [fileKeys_congr hfiles]
  rcases hchar p hp with h | ⟨i, hi, h⟩
  · exact hdisj p h
  · rw [h]
    exact hcol i hi

theorem col_restrict (A : List (List Char)) (t : List Char) (fk : List String)
    (hcol : ∀ i, i < A.length + 1 → pathOfSegs ((A ++ [t]).take (i + 1)) ∉ fk) :
    ∀ i, i < A.length → pathOfSegs (A.take (i + 1)) ∉ fk := by
  intro i hi
  have htk : (A ++ [t]).take (i + 1) = A.take (i + 1) := by
    rw [List.take_append_eq_append_take]
    have h0 : i + 1 - A.length = 0 := by omega
    simp [h0]
  have := hcol i (by omega)
  rwa [htk] at this

theorem cleanSegs_append_one (A : List (List Char)) (t : List Char)
    (hA : cleanSegs A) (ht : cleanSeg t) : cleanSegs (A ++ [t]) := by
  intro x hx
  rcases List.mem_append.mp hx with h | h
  · exact hA x h
  · rw [List.mem_singleton.mp h]
    exact ht

theorem client_local_clean (st : Storage) (fs : FS) (A : List (List Char))
    (hb : st.backend = LOCAL) (hr : st.root_dir = some (pathOfSegs A))
    (hclean : cleanSegs A) (hroot : "/" ∈ fs.dirs)
    (hdisj : ∀ p ∈ fs.dirs, p ∉ fileKeys fs)
    (hcol : ∀ i, i < A.length → pathOfSegs (A.take (i + 1)) ∉ fileKeys fs) :
    ∃ fs', st.client fs = .ok (.localClient ⟨st.project_id, pathOfSegs A⟩, fs') ∧
      fs'.files = fs.files ∧
      (∀ x ∈ fs.dirs, x ∈ fs'.dirs) ∧
      (∀ x ∈ fs'.dirs, x ∈ fs.dirs ∨ ∃ i, i < A.length ∧ x = pathOfSegs (A.take (i + 1))) ∧
      pathOfSegs A ∈ fs'.dirs ∧ "/" ∈ fs'.dirs := by
  obtain ⟨fs', hok, hfiles, hsub, hchar, hmem, hroot'⟩ :=
    _makedirs_clean A fs hclean hroot hdisj hcol
  refine ⟨fs', ?_, hfiles, hsub, hchar, hmem, hroot'⟩
  have hlk : BACKENDS.lookup LOCAL = some .localClientCtor := by decide
  simp only [Storage.client, hb, hr, hlk, LocalClient.init, hok]

theorem client_local_exists (st : Storage) (fs : FS) (root : String)
    (hb : st.backend = LOCAL) (hr : st.root_dir = some root)
    (hEx : fs.existsPath root) :
    st.client fs = .ok (.localClient ⟨st.project_id, root⟩, fs) := by
  have hlk : BACKENDS.lookup LOCAL = some .localClientCtor := by decide
  simp only [Storage.client, hb, hr, hlk, LocalClient.init, _makedirs, if_pos hEx]

theorem upload_clean (st : Storage) (fs : FS) (b : Bytes) (k : String)
    (A : List (List Char))
    (hb : st.backend = LOCAL)
    (hr : st.root_dir = some (pathOfSegs A))
    (hclean : cleanSegs A)
    (hname : cleanSeg st.name.data)
    (hkey : cleanSeg k.data)
    (hroot : "/" ∈ fs.dirs)
    (hdisj : ∀ p ∈ fs.dirs, p ∉ fileKeys fs)
    (hcol : ∀ i, i < A.length + 1 →
      pathOfSegs ((A ++ [st.name.data]).take (i + 1)) ∉ fileKeys fs)
    (hnd : pathOfSegs (A ++ [st.name.data] ++ [k.data]) ∉ fs.dirs) :
    ∃ fs', st.upload fs b k = (st, fs', none)
      ∧ fs'.files = (pathOfSegs (A ++ [st.name.data] ++ [k.data]), b)
          :: fs.files.filter (fun e => e.1 ≠ pathOfSegs (A ++ [st.name.data] ++ [k.data]))
      ∧ (∀ x ∈ fs.dirs, x ∈ fs'.dirs)
      ∧ (∀ x ∈ fs'.dirs, x ∈ fs.dirs ∨
          ∃ i, i < A.length + 1 ∧ x = pathOfSegs ((A ++ [st.name.data]).take (i + 1)))
      ∧ pathOfSegs A ∈ fs'.dirs
      ∧ pathOfSegs (A ++ [st.name.data]) ∈ fs'.dirs
      ∧ "/" ∈ fs'.dirs := by
  have hcolA : ∀ i, i < A.length → pathOfSegs (A.take (i + 1)) ∉ fileKeys fs :=
    col_restrict A st.name.data (fileKeys fs) hcol
  obtain ⟨fs1, hcl, hfiles1, hsub1, hchar1, hmemA1, hroot1⟩ :=
    client_local_clean st fs A hb hr hclean hroot hdisj hcolA
  have hkeys1 : fileKeys fs1 = fileKeys fs := fileKeys_congr hfiles1
  have hcleanC : cleanSegs (A ++ [st.name.data]) := cleanSegs_append_one A _ hclean hname
  have hbp : pjoin (pathOfSegs A) st.name = pathOfSegs (A ++ [st.name.data]) :=
    pjoin_pathOfSegs A st.name.data hclean hname
  have hdisj1 : ∀ p ∈ fs1.dirs, p ∉ fileKeys fs1 :=
    disj_preserved A fs fs1 hdisj hcolA hfiles1 hchar1
  have hcol1 : ∀ i, i < (A ++ [st.name.data]).length →
      pathOfSegs ((A ++ [st.name.data]).take (i + 1)) ∉ fileKeys fs1 := by
    intro i hi
    rw [hkeys1]
    exact hcol i (by simpa using hi)
  obtain ⟨fs2, hmk2, hfiles2, hsub2, hchar2, hmemC2, hroot2⟩ :=
    _makedirs_clean (A ++ [st.name.data]) fs1 hcleanC hroot1 hdisj1 hcol1
  have hkeys2 : fileKeys fs2 = fileKeys fs := by rw [fileKeys_congr hfiles2, hkeys1]
  -- every directory of fs2 is an old one or a prefix path of the bucket path
  have hchar2' : ∀ x ∈ fs2.dirs, x ∈ fs.dirs ∨
      ∃ i, i < A.length + 1 ∧ x = pathOfSegs ((A ++ [st.name.data]).take (i + 1)) := by
    intro x hx
    rcases hchar2 x hx with h | ⟨i, hi, h⟩
    · rcases hchar1 x h with h2 | ⟨i, hi, h2⟩
      · exact Or.inl h2
      · refine Or.inr ⟨i, by omega, ?_⟩
        rw [take_append_singleton_eq A st.name.data i hi]
        exact h2
    · exact Or.inr ⟨i, by simpa using hi, h⟩
  have hblob : pjoin (pathOfSegs (A ++ [st.name.data])) k
      = pathOfSegs (A ++ [st.name.data] ++ [k.data]) :=
    pjoin_pathOfSegs (A ++ [st.name.data]) k.data hcleanC hkey
  have hkne : k.data ≠ [] := hkey.1
  have hnd2 : pathOfSegs (A ++ [st.name.data] ++ [k.data]) ∉ fs2.dirs := by
    intro hx
    rcases hchar2' _ hx with h | ⟨i, hi, h⟩
    · exact hnd h
    · exact pathOfSegs_take_ne_concat (A ++ [st.name.data]) k.data i hkne h.symm
  have hdn : dirname (pathOfSegs (A ++ [st.name.data] ++ [k.data]))
      = pathOfSegs (A ++ [st.name.data]) :=
    dirname_pathOfSegs_concat (A ++ [st.name.data]) k.data
      (cleanSegs_append_one _ _ hcleanC hkey)
  refine ⟨{ fs2 with files := (pathOfSegs (A ++ [st.name.data] ++ [k.data]), b)
      :: fs2.files.filter fun e => e.1 ≠ pathOfSegs (A ++ [st.name.data] ++ [k.data]) },
    ?_, ?_, ?_, ?_, ?_, ?_, ?_⟩
  · simp only [Storage.upload, hcl, LocalClient.get_bucket, LocalBucket.blob, hbp, hmk2,
      LocalBlob.upload_from_string, LocalData.path, hblob, FS.writeFile, if_neg hnd2, hdn,
      if_pos (Or.inr hmemC2)]
  · simp only [hfiles2, hfiles1]
  · intro x hx
    exact hsub2 x (hsub1 x hx)
  · exact hchar2'
  · have := hsub2 _ hmemA1
    exact this
  · exact hmemC2
  · exact hroot2

theorem download_eq (st : Storage) (fs : FS) (k root : String) (fs1 : FS)
    (hcl : st.client fs = .ok (.localClient ⟨st.project_id, root⟩, fs1)) :
    st.download fs k = (st, fs1, fs1.readFile (pjoin (pjoin root st.name) k)) := by
  simp only [Storage.download, hcl, LocalClient.get_bucket, LocalBucket.get_blob,
    LocalBlob.download_as_string, LocalData.path]

theorem lookup_cons_self (p : String) (b : Bytes) (rest : List (String × Bytes)) :
    ((p, b) :: rest).lookup p = some b := by
  simp [List.lookup]

theorem mem_fileKeys_after (fs : FS) (p x : String) (b : Bytes)
    (hx : x ∈ fileKeys ⟨fs.dirs, (p, b) :: fs.files.filter fun e => e.1 ≠ p⟩) :
    x = p ∨ x ∈ fileKeys fs := by
  unfold fileKeys at hx ⊢
  simp only [List.map_cons, List.mem_cons] at hx
  rcases hx with h | h
  · exact Or.inl h
  · right
    simp only [List.mem_map] at h ⊢
    obtain ⟨e, he, hee⟩ := h
    exact ⟨e, (List.mem_filter.mp he).1, hee⟩

theorem upload_preserves_clean (st : Storage) (fs : FS) (b : Bytes) (k : String)
    (A : List (List Char))
    (hb : st.backend = LOCAL)
    (hr : st.root_dir = some (pathOfSegs A))
    (hclean : cleanSegs A)
    (hname : cleanSeg st.name.data)
    (hkey : cleanSeg k.data)
    (hroot : "/" ∈ fs.dirs)
    (hdisj : ∀ p ∈ fs.dirs, p ∉ fileKeys fs)
    (hcol : ∀ i, i < A.length + 1 →
      pathOfSegs ((A ++ [st.name.data]).take (i + 1)) ∉ fileKeys fs)
    (hnd : pathOfSegs (A ++ [st.name.data] ++ [k.data]) ∉ fs.dirs) :
    ∃ fs', st.upload fs b k = (st, fs', none)
      ∧ fs'.files = (pathOfSegs (A ++ [st.name.data] ++ [k.data]), b)
          :: fs.files.filter (fun e => e.1 ≠ pathOfSegs (A ++ [st.name.data] ++ [k.data]))
      ∧ "/" ∈ fs'.dirs
      ∧ (∀ p ∈ fs'.dirs, p ∉ fileKeys fs')
      ∧ (∀ i, i < A.length + 1 →
          pathOfSegs ((A ++ [st.name.data]).take (i + 1)) ∉ fileKeys fs')
      ∧ pathOfSegs (A ++ [st.name.data] ++ [k.data]) ∉ fs'.dirs
      ∧ pathOfSegs A ∈ fs'.dirs
      ∧ pathOfSegs (A ++ [st.name.data]) ∈ fs'.dirs
      ∧ (∀ x ∈ fs.dirs, x ∈ fs'.dirs) := by
  obtain ⟨fs', hup, hfiles, hsub, hchar, hmemA, hmemC, hroot'⟩ :=
    upload_clean st fs b k A hb hr hclean hname hkey hroot hdisj hcol hnd
  have hkne : k.data ≠ [] := hkey.1
  have hmemK : ∀ x, x ∈ fileKeys fs' →
      x = pathOfSegs (A ++ [st.name.data] ++ [k.data]) ∨ x ∈ fileKeys fs := by
    intro x hx
    apply mem_fileKeys_after fs
    unfold fileKeys at hx ⊢
    rw [← hfiles]
    exact hx
  have hndK : pathOfSegs (A ++ [st.name.data] ++ [k.data]) ∉ fs'.dirs := by
    intro hx
    rcases hchar _ hx with h | ⟨i, hi, h⟩
    · exact hnd h
    · exact pathOfSegs_take_ne_concat (A ++ [st.name.data]) k.data i hkne h.symm
  refine ⟨fs', hup, hfiles, hroot', ?_, ?_, hndK, hmemA, hmemC, hsub⟩
  · intro p hp hpk
    rcases hmemK p hpk with h | h
    · rw [h] at hp
      exact hndK hp
    · rcases hchar p hp with h2 | ⟨i, hi, h2⟩
      · exact hdisj p h2 h
      · rw [h2] at h
        exact hcol i hi h
  · intro i hi hik
    rcases hmemK _ hik with h | h
    · exact pathOfSegs_take_ne_concat (A ++ [st.name.data]) k.data i hkne h
    · exact hcol i hi h

theorem download_gives (st : Storage) (fs' : FS) (k : String) (b : Bytes)
    (A : List (List Char))
    (hb : st.backend = LOCAL)
    (hr : st.root_dir = some (pathOfSegs A))
    (hclean : cleanSegs A)
    (hname : cleanSeg st.name.data)
    (hkey : cleanSeg k.data)
    (hmemA : pathOfSegs A ∈ fs'.dirs)
    (hnd : pathOfSegs (A ++ [st.name.data] ++ [k.data]) ∉ fs'.dirs)
    (hfind : fs'.files.lookup (pathOfSegs (A ++ [st.name.data] ++ [k.data])) = some b) :
    st.download fs' k = (st, fs', .ok b) := by
  have hcl := client_local_exists st fs' (pathOfSegs A) hb hr (Or.inl hmemA)
  rw [download_eq st fs' k (pathOfSegs A) fs' hcl]
  have hcleanC : cleanSegs (A ++ [st.name.data]) := cleanSegs_append_one A _ hclean hname
  have hbp : pjoin (pathOfSegs A) st.name = pathOfSegs (A ++ [st.name.data]) :=
    pjoin_pathOfSegs A st.name.data hclean hname
  have hblob : pjoin (pathOfSegs (A ++ [st.name.data])) k
      = pathOfSegs (A ++ [st.name.data] ++ [k.data]) :=
    pjoin_pathOfSegs (A ++ [st.name.data]) k.data hcleanC hkey
  rw [hbp, hblob]
  unfold FS.readFile
  rw [if_neg hnd, hfind]

/-! ## Section 7: the claims -/

/-- A concrete LOCAL storage object for the concrete runs: bucket `songs`,
root directory `/data`. -/
def stDemo : Storage :=
  { name := "songs", project_id := "proj", backend := LOCAL, root_dir := some "/data" }

/-- A concrete filesystem holding just the root directory. -/
def fsRoot : FS := ⟨["/"], []⟩

/-- Bytes of `b"hello world"`. -/
def helloWorld : Bytes := [104, 101, 108, 108, 111, 32, 119, 111, 114, 108, 100]

/-- C1 (counterexample): the claim quantifies over every non-empty key, but
for the non-empty key `x/y` the write targets `<root>/<bucket>/x/y`, whose
parent directory `x` is never created, so upload raises
`FileNotFoundError` and the round trip does not return the payload. -/
theorem roundtrip_fails_on_separator_key :
    Storage.init "songs" "proj" LOCAL (some "/data") "/" "/root" = .ok stDemo
    ∧ uploadThenDownload stDemo fsRoot [104, 105] "x/y"
        = .error (.fileNotFound "/data/songs/x/y")
    ∧ uploadThenDownload stDemo fsRoot [104, 105] "x/y" ≠ .ok [104, 105] := by
  refine ⟨by decide, by decide, by decide⟩

/-- C1 (amended): for a LOCAL storage whose resolved root directory is a
well-formed absolute path, whose bucket name is a plain file name, and for
every key that is a plain file name (non-empty, no `/`, not `.` or `..`)
and every byte payload (the empty payload included), uploading under the
key and then downloading the key on the same object returns exactly the
payload.  The filesystem hypotheses say the OS root exists, no regular file
shadows a directory or a needed directory path, and no directory sits at
the blob path. -/
theorem upload_download_roundtrip (st : Storage) (fs : FS) (b : Bytes) (k : String)
    (A : List (List Char))
    (hb : st.backend = LOCAL)
    (hr : st.root_dir = some (pathOfSegs A))
    (hclean : cleanSegs A)
    (hname : cleanSeg st.name.data)
    (hkey : cleanSeg k.data)
    (hroot : "/" ∈ fs.dirs)
    (hdisj : ∀ p ∈ fs.dirs, p ∉ fileKeys fs)
    (hcol : ∀ i, i < A.length + 1 →
      pathOfSegs ((A ++ [st.name.data]).take (i + 1)) ∉ fileKeys fs)
    (hnd : pathOfSegs (A ++ [st.name.data] ++ [k.data]) ∉ fs.dirs) :
    uploadThenDownload st fs b k = .ok b := by
  obtain ⟨fs', hup, hfiles, hroot', hdisj', hcol', hnd', hmemA, hmemC, hsub⟩ :=
    upload_preserves_clean st fs b k A hb hr hclean hname hkey hroot hdisj hcol hnd
  unfold uploadThenDownload
  rw [hup]
  show (st.download fs' k).2.2 = .ok b
  rw [download_gives st fs' k b A hb hr hclean hname hkey hmemA hnd'
    (by rw [hfiles]; exact lookup_cons_self _ _ _)]

/-- C1 (witness): the end-to-end scenario of the claim, `b"hello world"`
under key `a.wav`, on the concrete LOCAL storage. -/
theorem upload_download_roundtrip_witness :
    uploadThenDownload stDemo fsRoot helloWorld "a.wav" = .ok helloWorld :=
  upload_download_roundtrip stDemo fsRoot helloWorld "a.wav"
    [['d', 'a', 't', 'a']] (by decide) (by decide) (by decide) (by decide) (by decide)
    (by decide) (by decide) (by decide) (by decide)

/-- C2 (counterexample): the claim quantifies over every key, but for the
key `p/q` already the first upload fails with `FileNotFoundError` (missing
parent directory), so uploading twice does not succeed without error. -/
theorem upload_twice_fails_on_separator_key :
    (stDemo.upload fsRoot [1] "p/q").2.2 = some (.fileNotFound "/data/songs/p/q")
    ∧ (stDemo.upload fsRoot [1] "p/q").2.2 ≠ none := by
  refine ⟨by decide, by decide⟩

/-- C2 (amended): for plain-file-name keys (non-empty, no `/`, not `.` or
`..`) on a well-formed LOCAL configuration, uploading `b1` and then `b2`
under the same key succeeds both times and leaves `download k = b2`: the
second upload overwrites the first, last write wins; taking `b1 = b2`
gives the idempotence of repeated uploads. -/
theorem upload_overwrite_last_write_wins (st : Storage) (fs : FS) (b1 b2 : Bytes)
    (k : String) (A : List (List Char))
    (hb : st.backend = LOCAL)
    (hr : st.root_dir = some (pathOfSegs A))
    (hclean : cleanSegs A)
    (hname : cleanSeg st.name.data)
    (hkey : cleanSeg k.data)
    (hroot : "/" ∈ fs.dirs)
    (hdisj : ∀ p ∈ fs.dirs, p ∉ fileKeys fs)
    (hcol : ∀ i, i < A.length + 1 →
      pathOfSegs ((A ++ [st.name.data]).take (i + 1)) ∉ fileKeys fs)
    (hnd : pathOfSegs (A ++ [st.name.data] ++ [k.data]) ∉ fs.dirs) :
    ∃ fs1 fs2, st.upload fs b1 k = (st, fs1, none)
      ∧ st.upload fs1 b2 k = (st, fs2, none)
      ∧ (st.download fs2 k).2.2 = .ok b2 := by
  obtain ⟨fs1, hup1, hfiles1, hroot1, hdisj1, hcol1, hnd1, hmemA1, hmemC1, hsub1⟩ :=
    upload_preserves_clean st fs b1 k A hb hr hclean hname hkey hroot hdisj hcol hnd
  obtain ⟨fs2, hup2, hfiles2, hroot2, hdisj2, hcol2, hnd2, hmemA2, hmemC2, hsub2⟩ :=
    upload_preserves_clean st fs1 b2 k A hb hr hclean hname hkey hroot1 hdisj1 hcol1 hnd1
  refine ⟨fs1, fs2, hup1, hup2, ?_⟩
  rw [download_gives st fs2 k b2 A hb hr hclean hname hkey hmemA2 hnd2
    (by rw [hfiles2]; exact lookup_cons_self _ _ _)]

/-- C2 (witness): overwriting `[9]` with `[7, 7]` under `k.wav` on the
concrete LOCAL storage. -/
theorem upload_overwrite_last_write_wins_witness :
    ∃ fs1 fs2, stDemo.upload fsRoot [9] "k.wav" = (stDemo, fs1, none)
      ∧ stDemo.upload fs1 [7, 7] "k.wav" = (stDemo, fs2, none)
      ∧ (stDemo.download fs2 "k.wav").2.2 = .ok [7, 7] :=
  upload_overwrite_last_write_wins stDemo fsRoot [9] [7, 7] "k.wav"
    [['d', 'a', 't', 'a']] (by decide) (by decide) (by decide) (by decide) (by decide)
    (by decide) (by decide) (by decide) (by decide)

/-- C6 (counterexample): the claim says upload writes the data to the file
at the joined path for every key, but for the key `x/y.wav` no file is
written at all: the write raises `FileNotFoundError` and the file table is
left empty. -/
theorem upload_separator_key_writes_no_file :
    (stDemo.upload fsRoot [1, 2, 3] "x/y.wav").2.2
        = some (.fileNotFound "/data/songs/x/y.wav")
    ∧ (stDemo.upload fsRoot [1, 2, 3] "x/y.wav").2.1.files = [] := by
  refine ⟨by decide, by decide⟩

/-- C6 (amended): for plain-file-name keys on a well-formed LOCAL
configuration, upload writes the data to the file at
`pjoin (pjoin root bucket_name) key` — the resolved `local_dir` joined with
the bucket name joined with the verbatim key — and creates the bucket
subdirectory `pjoin root bucket_name` if absent. -/
theorem upload_writes_joined_path (st : Storage) (fs : FS) (data : Bytes) (k : String)
    (A : List (List Char))
    (hb : st.backend = LOCAL)
    (hr : st.root_dir = some (pathOfSegs A))
    (hclean : cleanSegs A)
    (hname : cleanSeg st.name.data)
    (hkey : cleanSeg k.data)
    (hroot : "/" ∈ fs.dirs)
    (hdisj : ∀ p ∈ fs.dirs, p ∉ fileKeys fs)
    (hcol : ∀ i, i < A.length + 1 →
      pathOfSegs ((A ++ [st.name.data]).take (i + 1)) ∉ fileKeys fs)
    (hnd : pathOfSegs (A ++ [st.name.data] ++ [k.data]) ∉ fs.dirs) :
    ∃ fs', st.upload fs data k = (st, fs', none)
      ∧ fs'.files.lookup (pjoin (pjoin (pathOfSegs A) st.name) k) = some data
      ∧ pjoin (pathOfSegs A) st.name ∈ fs'.dirs := by
  obtain ⟨fs', hup, hfiles, hroot', hdisj', hcol', hnd', hmemA, hmemC, hsub⟩ :=
    upload_preserves_clean st fs data k A hb hr hclean hname hkey hroot hdisj hcol hnd
  have hcleanC : cleanSegs (A ++ [st.name.data]) := cleanSegs_append_one A _ hclean hname
  have hbp : pjoin (pathOfSegs A) st.name = pathOfSegs (A ++ [st.name.data]) :=
    pjoin_pathOfSegs A st.name.data hclean hname
  have hblob : pjoin (pathOfSegs (A ++ [st.name.data])) k
      = pathOfSegs (A ++ [st.name.data] ++ [k.data]) :=
    pjoin_pathOfSegs (A ++ [st.name.data]) k.data hcleanC hkey
  refine ⟨fs', hup, ?_, ?_⟩
  · rw [hbp, hblob, hfiles]
    exact lookup_cons_self _ _ _
  · rw [hbp]
    exact hmemC

/-- C6 (witness): uploading `[5, 6]` under `tone.wav` writes the file at
`/data/songs/tone.wav` and creates `/data/songs`. -/
theorem upload_writes_joined_path_witness :
    ∃ fs', stDemo.upload fsRoot [5, 6] "tone.wav" = (stDemo, fs', none)
      ∧ fs'.files.lookup (pjoin (pjoin "/data" "songs") "tone.wav") = some [5, 6]
      ∧ pjoin "/data" "songs" ∈ fs'.dirs :=
  upload_writes_joined_path stDemo fsRoot [5, 6] "tone.wav"
    [['d', 'a', 't', 'a']] (by decide) (by decide) (by decide) (by decide) (by decide)
    (by decide) (by decide) (by decide) (by decide)

theorem pjoin_pathOfSegs_data (C : List (List Char)) (k : String)
    (hC : cleanSegs C) (hCne : C ≠ []) (hk : ¬ startsWithSep k) :
    (pjoin (pathOfSegs C) k).data = pathData C ++ '/' :: k.data := by
  obtain ⟨c, cs, hcase⟩ : ∃ c cs, C = c :: cs := by
    cases C with
    | nil => exact absurd rfl hCne
    | cons c cs => exact ⟨c, cs, rfl⟩
  subst hcase
  obtain ⟨d, rest, hdrest, hdne⟩ := joinCharSegs_reverse_head (c :: cs) hC (by simp)
  unfold pjoin
  rw [if_neg hk, if_neg (by
    rintro (h | h)
    · exact pathOfSegs_ne_empty (c :: cs) h
    · unfold endsWithSep pathOfSegs at h
      rw [show (pathData (c :: cs)).getLast? = (pathData (c :: cs)).reverse.head? by
          simp [List.head?_reverse]] at h
      rw [show (pathData (c :: cs)).reverse = (joinCharSegs (c :: cs)).reverse ++ ['/'] by
          simp [pathData], hdrest] at h
      simp only [List.cons_append, List.head?_cons, Option.some.injEq] at h
      exact hdne h)]
  rfl

theorem lookup_eq_none_of_not_mem (l : List (String × Bytes)) (p : String)
    (h : p ∉ l.map Prod.fst) : l.lookup p = none := by
  induction l with
  | nil => rfl
  | cons e t ih =>
    simp only [List.map_cons, List.mem_cons] at h
    push_neg at h
    obtain ⟨k0, v0⟩ := e
    have hb : (p == k0) = false := beq_eq_false_iff_ne.mpr h.1
    simp only [List.lookup, hb]
    exact ih h.2

/-- C3 (counterexample): the claim promises a not-found error for every
never-uploaded key, but for the key `/` (never uploaded) the blob path is
the filesystem root itself and the read fails with `IsADirectoryError`,
not with the not-found error. -/
theorem download_root_key_not_notfound :
    (stDemo.download fsRoot "/").2.2 = .error (.isADirectory "/")
    ∧ ∀ p, (stDemo.download fsRoot "/").2.2 ≠ .error (.fileNotFound p) := by
  refine ⟨by decide, ?_⟩
  intro p h
  have h2 : (stDemo.download fsRoot "/").2.2 = .error (.isADirectory "/") := by decide
  rw [h2] at h
  injection h with h
  exact Err.noConfusion h

/-- C3 (amended): for every key that does not start with `/`, names no `.`,
`..` or empty path components, and was never uploaded (no file and no
directory at the blob path), download on a well-formed LOCAL configuration
fails with `FileNotFoundError` at the blob path, and the filesystem is
unchanged apart from the directory creation performed by the client
handle (the file table is untouched and the only new directories are the
root-directory chain). -/
theorem download_missing_key_not_found (st : Storage) (fs : FS) (k : String)
    (A : List (List Char))
    (hb : st.backend = LOCAL)
    (hr : st.root_dir = some (pathOfSegs A))
    (hclean : cleanSegs A)
    (hname : cleanSeg st.name.data)
    (hkey : ¬ startsWithSep k)
    (halias : ∀ c ∈ splitSlash k.data, c ≠ [] ∧ c ≠ ['.'] ∧ c ≠ ['.', '.'])
    (hroot : "/" ∈ fs.dirs)
    (hdisj : ∀ p ∈ fs.dirs, p ∉ fileKeys fs)
    (hcol : ∀ i, i < A.length → pathOfSegs (A.take (i + 1)) ∉ fileKeys fs)
    (hnf : pjoin (pjoin (pathOfSegs A) st.name) k ∉ fileKeys fs)
    (hnd : pjoin (pjoin (pathOfSegs A) st.name) k ∉ fs.dirs) :
    ∃ fs1, st.download fs k
        = (st, fs1, .error (.fileNotFound (pjoin (pjoin (pathOfSegs A) st.name) k)))
      ∧ fs1.files = fs.files
      ∧ (∀ x ∈ fs.dirs, x ∈ fs1.dirs)
      ∧ (∀ x ∈ fs1.dirs, x ∈ fs.dirs ∨ ∃ i, i < A.length ∧ x = pathOfSegs (A.take (i + 1))) := by
  obtain ⟨fs1, hcl, hfiles1, hsub1, hchar1, hmemA1, hroot1⟩ :=
    client_local_clean st fs A hb hr hclean hroot hdisj hcol
  have hbp : pjoin (pathOfSegs A) st.name = pathOfSegs (A ++ [st.name.data]) :=
    pjoin_pathOfSegs A st.name.data hclean hname
  have hcleanC : cleanSegs (A ++ [st.name.data]) := cleanSegs_append_one A _ hclean hname
  have hlen : ∀ i, i < A.length →
      pathOfSegs (A.take (i + 1)) ≠ pjoin (pjoin (pathOfSegs A) st.name) k := by
    intro i hi heq
    have hd : (pathOfSegs (A.take (i + 1))).data.length
        = (pjoin (pjoin (pathOfSegs A) st.name) k).data.length := by
      rw [heq]
    rw [hbp, pjoin_pathOfSegs_data (A ++ [st.name.data]) k hcleanC (by simp) hkey] at hd
    simp only [pathOfSegs, List.length_append, List.length_cons] at hd
    have h1 := pathData_take_length_le A i.succ
    have h2 := pathData_concat_length_lt A st.name.data hname.1
    simp only [Nat.succ_eq_add_one] at h1
    omega
  have hnd1 : pjoin (pjoin (pathOfSegs A) st.name) k ∉ fs1.dirs := by
    intro hx
    rcases hchar1 _ hx with h | ⟨i, hi, h⟩
    · exact hnd h
    · exact hlen i hi h.symm
  refine ⟨fs1, ?_, hfiles1, hsub1, hchar1⟩
  rw [download_eq st fs k (pathOfSegs A) fs1 hcl]
  unfold FS.readFile
  rw [if_neg hnd1, lookup_eq_none_of_not_mem fs1.files _ (by
    show pjoin (pjoin (pathOfSegs A) st.name) k ∉ fileKeys fs1
    rw [fileKeys_congr hfiles1]
    exact hnf)]

/-- C3 (witness): downloading the never-uploaded key `nope.wav` on the
concrete LOCAL storage yields `FileNotFoundError` at
`/data/songs/nope.wav`, with only the root directory chain created. -/
theorem download_missing_key_not_found_witness :
    ∃ fs1, stDemo.download fsRoot "nope.wav"
        = (stDemo, fs1, .error (.fileNotFound (pjoin (pjoin "/data" "songs") "nope.wav")))
      ∧ fs1.files = fsRoot.files
      ∧ (∀ x ∈ fsRoot.dirs, x ∈ fs1.dirs)
      ∧ (∀ x ∈ fs1.dirs, x ∈ fsRoot.dirs ∨
          ∃ i, i < 1 ∧ x = pathOfSegs ([['d', 'a', 't', 'a']].take (i + 1))) :=
  download_missing_key_not_found stDemo fsRoot "nope.wav" [['d', 'a', 't', 'a']]
    (by decide) (by decide) (by decide) (by decide) (by decide) (by decide) (by decide)
    (by decide) (by decide) (by decide) (by decide)

/-- C4: constructing a Storage with backend LOCAL and no `local_dir` always
fails with the `ValueError` configuration error (and the constructor, a
pure function of its arguments with no filesystem parameter, performs no
I/O before it); with any non-None `local_dir` the constructor succeeds and
stores the resolved root directory. -/
theorem init_local_requires_local_dir :
    (∀ n p cwd home, Storage.init n p LOCAL none cwd home
        = .error (.valueError "`local_dir` must be given if backend is 'local'"))
    ∧ (∀ n p d cwd home, Storage.init n p LOCAL (some d) cwd home
        = .ok { name := n, project_id := p, backend := LOCAL,
                root_dir := some (abspath cwd (expanduser home d)) }) := by
  constructor
  · intro n p cwd home
    unfold Storage.init
    rw [if_pos ⟨rfl, rfl⟩]
    decide
  · intro n p d cwd home
    unfold Storage.init
    rw [if_neg (by
      intro h
      exact Option.noConfusion h.2)]
    rw [if_pos rfl]
    rfl

theorem osMkdir_mono (fs : FS) (p : String) (fs' : FS) (h : fs.osMkdir p = .ok fs') :
    (∀ x ∈ fs.dirs, x ∈ fs'.dirs) ∧ fs'.files = fs.files := by
  unfold FS.osMkdir at h
  split at h
  · exact absurd h (by simp)
  · split at h
    · injection h with h
      subst h
      exact ⟨fun x hx => by simp [hx], rfl⟩
    · split at h
      · exact absurd h (by simp)
      · exact absurd h (by simp)

theorem osMakedirs_mono (fuel : Nat) :
    ∀ (fs : FS) (d : String) (fs' : FS), osMakedirs fuel fs d = .ok fs' →
      (∀ x ∈ fs.dirs, x ∈ fs'.dirs) ∧ fs'.files = fs.files := by
  induction fuel with
  | zero =>
    intro fs d fs' h
    exact absurd h (by simp [osMakedirs])
  | succ f ih =>
    intro fs d fs' h
    simp only [osMakedirs] at h
    split at h
    ·
      split at h
      · split at h
        · rename_i fs1 heq
          split at h
          · injection h with h
            subst h
            exact ih _ _ _ heq
          · obtain ⟨s1, f1⟩ := ih _ _ _ heq
            obtain ⟨s2, f2⟩ := osMkdir_mono _ _ _ h
            exact ⟨fun x hx => s2 x (s1 x hx), f2.trans f1⟩
        · split at h
          · injection h with h
            subst h
            exact ⟨fun x hx => hx, rfl⟩
          · exact osMkdir_mono _ _ _ h
        · exact Except.noConfusion h
      · exact osMkdir_mono _ _ _ h
    ·
      split at h
      · split at h
        · rename_i fs1 heq
          split at h
          · injection h with h
            subst h
            exact ih _ _ _ heq
          · obtain ⟨s1, f1⟩ := ih _ _ _ heq
            obtain ⟨s2, f2⟩ := osMkdir_mono _ _ _ h
            exact ⟨fun x hx => s2 x (s1 x hx), f2.trans f1⟩
        · split at h
          · injection h with h
            subst h
            exact ⟨fun x hx => hx, rfl⟩
          · exact osMkdir_mono _ _ _ h
        · exact Except.noConfusion h
      · exact osMkdir_mono _ _ _ h

theorem _makedirs_mono (fs : FS) (d : String) (fs' : FS) (h : _makedirs fs d = .ok fs') :
    (∀ x ∈ fs.dirs, x ∈ fs'.dirs) ∧ fs'.files = fs.files := by
  unfold _makedirs at h
  split at h
  · injection h with h
    subst h
    exact ⟨fun x hx => hx, rfl⟩
  · exact osMakedirs_mono _ _ _ _ h

theorem writeFile_dirs (fs : FS) (p : String) (b : Bytes) (fs' : FS)
    (h : fs.writeFile p b = .ok fs') : fs'.dirs = fs.dirs := by
  unfold FS.writeFile at h
  split at h
  · exact absurd h (by simp)
  · split at h
    · injection h with h
      subst h
      rfl
    · split at h
      · exact absurd h (by simp)
      · exact absurd h (by simp)

theorem normpath_abs (p : String) (hp : startsWithSep p) : startsWithSep (normpath p) := by
  unfold startsWithSep at hp
  obtain ⟨cs, hcase⟩ : ∃ cs, p.data = '/' :: cs := by
    cases hcs : p.data with
    | nil => rw [hcs] at hp; exact absurd hp (by simp)
    | cons c cs =>
      rw [hcs] at hp
      simp only [List.head?_cons, Option.some.injEq] at hp
      exact ⟨cs, by rw [hp]⟩
  unfold normpath startsWithSep
  rw [hcase, if_neg (by simp)]
  dsimp only
  simp only [List.head?_cons, if_true]
  set n := if List.take 2 ('/' :: cs) = ['/', '/'] ∧
      ¬ List.take 3 ('/' :: cs) = ['/', '/', '/'] then 2 else 1 with hn
  have hn1 : 1 ≤ n := by
    rw [hn]
    split <;> omega
  obtain ⟨m, hm⟩ : ∃ m, n = m + 1 := ⟨n - 1, by omega⟩
  rw [hm, List.replicate_succ]
  rw [if_neg (by simp)]
  simp

theorem abspath_abs (cwd p : String) (hc : startsWithSep cwd) :
    startsWithSep (abspath cwd p) := by
  unfold abspath
  by_cases hp : startsWithSep p
  · rw [if_pos hp]
    exact normpath_abs p hp
  · rw [if_neg hp]
    apply normpath_abs
    unfold pjoin
    rw [if_neg hp]
    unfold startsWithSep at hc ⊢
    obtain ⟨cs, hcase⟩ : ∃ cs, cwd.data = '/' :: cs := by
      cases hcs : cwd.data with
      | nil => rw [hcs] at hc; exact absurd hc (by simp)
      | cons c cs =>
        rw [hcs] at hc
        simp only [List.head?_cons, Option.some.injEq] at hc
        exact ⟨cs, by rw [hc]⟩
    split
    · simp [hcase]
    · simp [hcase]

/-- C7: the LOCAL configuration is resolved with user expansion to an
absolute path at construction time, and the resolved directory (with its
missing parents) is created as a side effect the moment a client handle is
requested; since upload and download both request a client handle first,
the root directory is present in the filesystem they leave behind, whether
they succeed or fail afterwards — the creation is not deferred past the
client request. -/
theorem client_resolves_and_creates_root_dir :
    (∀ n p d cwd home st, Storage.init n p LOCAL (some d) cwd home = .ok st →
      st.root_dir = some (abspath cwd (expanduser home d)))
    ∧ (∀ cwd p, startsWithSep cwd → startsWithSep (abspath cwd p))
    ∧ (∀ (st : Storage) (fs : FS) (A : List (List Char)),
        st.backend = LOCAL → st.root_dir = some (pathOfSegs A) →
        cleanSegs A → "/" ∈ fs.dirs →
        (∀ p ∈ fs.dirs, p ∉ fileKeys fs) →
        (∀ i, i < A.length → pathOfSegs (A.take (i + 1)) ∉ fileKeys fs) →
        ∃ fs1, st.client fs = .ok (.localClient ⟨st.project_id, pathOfSegs A⟩, fs1)
          ∧ fs1.files = fs.files
          ∧ pathOfSegs A ∈ fs1.dirs
          ∧ ((∀ i, i < A.length → ¬ fs.existsPath (pathOfSegs (A.take (i + 1)))) →
              ∀ i, i < A.length → pathOfSegs (A.take (i + 1)) ∈ fs1.dirs)
          ∧ (∀ b k, pathOfSegs A ∈ (st.upload fs b k).2.1.dirs)
          ∧ (∀ k, pathOfSegs A ∈ (st.download fs k).2.1.dirs)) := by
  refine ⟨?_, ?_, ?_⟩
  · intro n p d cwd home st h
    unfold Storage.init at h
    rw [if_neg (by intro hc; exact Option.noConfusion hc.2), if_pos rfl] at h
    injection h with h
    subst h
    rfl
  · exact fun cwd p hc => abspath_abs cwd p hc
  · intro st fs A hb hr hclean hroot hdisj hcol
    obtain ⟨fs1, hcl, hfiles1, hsub1, hchar1, hmemA1, hroot1⟩ :=
      client_local_clean st fs A hb hr hclean hroot hdisj hcol
    refine ⟨fs1, hcl, hfiles1, hmemA1, ?_, ?_, ?_⟩
    · -- with all prefixes missing, the whole chain is created
      intro hmiss i hi
      have hlk : BACKENDS.lookup LOCAL = some .localClientCtor := by decide
      have hnex : ¬ fs.existsPath (pathOfSegs A) := by
        have hAne : A ≠ [] := by
          intro h
          subst h
          simp at hi
        have htk : A.take (A.length - 1 + 1) = A := by
          apply List.take_of_length_le
          omega
        have := hmiss (A.length - 1) (by
          cases A with
          | nil => exact absurd rfl hAne
          | cons a A' => simp)
        rwa [htk] at this
      have hAne : A ≠ [] := by
        intro h
        subst h
        simp at hi
      have hlen : A.length ≤ (pathOfSegs A).data.length + 1 := by
        have := segs_length_le_pathData_length A
        simp only [pathOfSegs] at *
        omega
      obtain ⟨fs', hok, hfiles, hsub, hchar, hmem, hpre⟩ :=
        osMakedirs_clean ((pathOfSegs A).data.length + 1) A fs hclean hAne hlen hroot
          hdisj hcol hnex
      have hcl2 : st.client fs = .ok (.localClient ⟨st.project_id, pathOfSegs A⟩, fs') := by
        simp only [Storage.client, hb, hr, hlk, LocalClient.init, _makedirs,
          if_neg hnex, hok]
      have hfs1 : fs1 = fs' := by
        have h0 := hcl.symm.trans hcl2
        injection h0 with h0
        exact congrArg Prod.snd h0
      subst hfs1
      rcases hpre i hi with h | ⟨j, hij, hj, hex⟩
      · exact h
      · exact absurd hex (hmiss j hj)
    · intro b k
      show pathOfSegs A ∈ (st.upload fs b k).2.1.dirs
      simp only [Storage.upload, hcl, LocalClient.get_bucket]
      generalize hbl : LocalBucket.blob ⟨st.name, pathOfSegs A⟩ fs1 k = r
      cases r with
      | error e => simpa using hmemA1
      | ok pr =>
        obtain ⟨blob, fs2⟩ := pr
        show pathOfSegs A ∈
          (match LocalBlob.upload_from_string blob fs2 b "application/octet-stream" with
            | Except.error e => (fs2, some e)
            | Except.ok fs3 => (fs3, none)).1.dirs
        have hmono2 : ∀ x ∈ fs1.dirs, x ∈ fs2.dirs := by
          unfold LocalBucket.blob at hbl
          cases hmk : _makedirs fs1 (LocalData.path ⟨st.name, pathOfSegs A⟩) with
          | error e =>
            rw [hmk] at hbl
            exact absurd hbl (by simp)
          | ok fs2' =>
            rw [hmk] at hbl
            injection hbl with hbl
            injection hbl with hbl1 hbl2
            subst hbl2
            exact (_makedirs_mono _ _ _ hmk).1
        generalize hw : LocalBlob.upload_from_string blob fs2 b "application/octet-stream" = w
        cases w with
        | error e => simpa using hmono2 _ hmemA1
        | ok fs3 =>
          unfold LocalBlob.upload_from_string at hw
          have hd3 : fs3.dirs = fs2.dirs :=
            writeFile_dirs fs2 _ b fs3 hw
          show pathOfSegs A ∈ fs3.dirs
          rw [hd3]
          exact hmono2 _ hmemA1
    · intro k
      rw [download_eq st fs k (pathOfSegs A) fs1 hcl]
      exact hmemA1

/-- C7 (witness): the concrete LOCAL storage resolves to `/data`, and a
client request on the fresh filesystem creates it (with its parent chain),
as do upload and download. -/
theorem client_resolves_and_creates_root_dir_witness :
    ∃ fs1, stDemo.client fsRoot = .ok (.localClient ⟨"proj", "/data"⟩, fs1)
      ∧ fs1.files = fsRoot.files
      ∧ "/data" ∈ fs1.dirs
      ∧ ((∀ i, i < 1 → ¬ fsRoot.existsPath (pathOfSegs ([['d', 'a', 't', 'a']].take (i + 1)))) →
          ∀ i, i < 1 → pathOfSegs ([['d', 'a', 't', 'a']].take (i + 1)) ∈ fs1.dirs)
      ∧ (∀ b k, "/data" ∈ (stDemo.upload fsRoot b k).2.1.dirs)
      ∧ (∀ k, "/data" ∈ (stDemo.download fsRoot k).2.1.dirs) :=
  client_resolves_and_creates_root_dir.2.2 stDemo fsRoot [['d', 'a', 't', 'a']]
    (by decide) (by decide) (by decide) (by decide) (by decide) (by decide)

/-- C8: frame property — `upload` and `download` return the Storage object
unchanged (the method bodies never write to `self`), and the behaviour of
`client`, `upload` and `download` is a function of the four configuration
fields captured at construction alone: two objects agreeing on `name`,
`project_id`, backend selector and backend kwargs behave identically, so no
client handle or other mutable state is cached between calls (the client is
rebuilt from the stored configuration on every call). -/
theorem storage_ops_preserve_object :
    ∀ (st : Storage) (fs : FS) (b : Bytes) (k : String),
      (st.upload fs b k).1 = st ∧ (st.download fs k).1 = st ∧
      (∀ st2 : Storage, st.name = st2.name → st.project_id = st2.project_id →
        st.backend = st2.backend → st.root_dir = st2.root_dir →
        st.client = st2.client ∧ st.upload = st2.upload ∧ st.download = st2.download) := by
  intro st fs b k
  refine ⟨rfl, rfl, ?_⟩
  intro st2 h1 h2 h3 h4
  obtain ⟨n, p, be, rd⟩ := st
  obtain ⟨n2, p2, be2, rd2⟩ := st2
  obtain rfl : n = n2 := h1
  obtain rfl : p = p2 := h2
  obtain rfl : be = be2 := h3
  obtain rfl : rd = rd2 := h4
  exact ⟨rfl, rfl, rfl⟩

/-- C8 (witness): the concrete LOCAL storage behaves as its own
configuration twin. -/
theorem storage_ops_preserve_object_witness :
    stDemo.client = stDemo.client ∧ stDemo.upload = stDemo.upload
      ∧ stDemo.download = stDemo.download :=
  (storage_ops_preserve_object stDemo fsRoot [1] "k").2.2 stDemo rfl rfl rfl rfl

/-- C9: a backend string that is neither LOCAL nor GCLOUD passes the
constructor (which only validates the LOCAL-without-local_dir case), and
the failure surfaces only later as the dictionary `KeyError` in the
`BACKENDS` dispatch when a client handle is requested — which both upload
and download do first, so both fail with that `KeyError` and leave the
filesystem untouched. -/
theorem unknown_backend_defers_failure :
    ∀ (n p be : String) (ld : Option String) (cwd home : String),
      be ≠ LOCAL → be ≠ GCLOUD →
      Storage.init n p be ld cwd home = .ok ⟨n, p, be, none⟩
      ∧ (∀ fs, (Storage.mk n p be none).client fs = .error (.keyError be))
      ∧ (∀ fs b k, (Storage.mk n p be none).upload fs b k
          = (⟨n, p, be, none⟩, fs, some (.keyError be)))
      ∧ (∀ fs k, (Storage.mk n p be none).download fs k
          = (⟨n, p, be, none⟩, fs, .error (.keyError be))) := by
  intro n p be ld cwd home hL hG
  have hlk : BACKENDS.lookup be = none := by
    have h1 : (be == GCLOUD) = false := beq_eq_false_iff_ne.mpr hG
    have h2 : (be == LOCAL) = false := beq_eq_false_iff_ne.mpr hL
    simp [BACKENDS, List.lookup, h1, h2]
  have hcl : ∀ fs : FS, (Storage.mk n p be none).client fs = .error (.keyError be) := by
    intro fs
    simp only [Storage.client, hlk]
  refine ⟨?_, hcl, ?_, ?_⟩
  · unfold Storage.init
    rw [if_neg (by intro hc; exact hL hc.1), if_neg hL]
  · intro fs b k
    simp only [Storage.upload, hcl]
  · intro fs k
    simp only [Storage.download, hcl]

/-- C9 (witness): the backend string `s3` is accepted by the constructor
and every client request, upload and download fails with `KeyError s3`. -/
theorem unknown_backend_defers_failure_witness :
    (Storage.mk "bkt" "p" "s3" none).client fsRoot = .error (.keyError "s3") :=
  (unknown_backend_defers_failure "bkt" "p" "s3" none "/" "/h"
    (by decide) (by decide)).2.1 fsRoot

theorem nat_lor_land_distrib {x y z : Nat} : (x ||| y) &&& z = (x &&& z) ||| (y &&& z) :=
  Nat.eq_of_testBit_eq fun i => by
    simp only [Nat.testBit_land, Nat.testBit_lor]
    cases x.testBit i <;> cases y.testBit i <;> cases z.testBit i <;> rfl

theorem nat_land_assoc {x y z : Nat} : (x &&& y) &&& z = x &&& (y &&& z) :=
  Nat.eq_of_testBit_eq fun i => by
    simp only [Nat.testBit_land]
    cases x.testBit i <;> cases y.testBit i <;> cases z.testBit i <;> rfl

theorem nat_lor_assoc {x y z : Nat} : (x ||| y) ||| z = x ||| (y ||| z) :=
  Nat.eq_of_testBit_eq fun i => by
    simp only [Nat.testBit_lor]
    cases x.testBit i <;> cases y.testBit i <;> cases z.testBit i <;> rfl

theorem nat_shiftRight_lor {x y k : Nat} : (x ||| y) >>> k = (x >>> k) ||| (y >>> k) :=
  Nat.eq_of_testBit_eq fun i => by
    simp [Nat.testBit_shiftRight, Nat.testBit_lor]

theorem nat_shiftRight_land {x y k : Nat} : (x &&& y) >>> k = (x >>> k) &&& (y >>> k) :=
  Nat.eq_of_testBit_eq fun i => by
    simp [Nat.testBit_shiftRight, Nat.testBit_land]

theorem nat_land_zero {x : Nat} : x &&& 0 = 0 :=
  Nat.eq_of_testBit_eq fun i => by simp [Nat.testBit_land]

theorem nat_zero_lor {x : Nat} : 0 ||| x = x :=
  Nat.eq_of_testBit_eq fun i => by simp [Nat.testBit_lor]

/-- The 122 digest bits the UUID constructor keeps: everything except the
variant bits (`0xc000 <<< 48`) and the version nibble (`0xf000 <<< 64`). -/
def uuidKeepMask : Nat :=
  (ones128 ^^^ (0xc000 <<< 48)) &&& (ones128 ^^^ (0xf000 <<< 64))

/-- The bits the UUID constructor forces on: the RFC 4122 variant bit and
the version nibble 4. -/
def uuidSetBits : Nat :=
  ((0x8000 <<< 48) &&& (ones128 ^^^ (0xf000 <<< 64))) ||| (4 <<< 76)

theorem uuidIntFromHexV4_eq (h : String) :
    uuidIntFromHexV4 h = (natOfHex h &&& uuidKeepMask) ||| uuidSetBits := by
  unfold uuidIntFromHexV4 uuidKeepMask uuidSetBits
  dsimp only
  rw [nat_lor_land_distrib, nat_land_assoc, nat_lor_assoc]

theorem uuid_forced_version_bits (n : Nat) :
    (((n &&& uuidKeepMask) ||| uuidSetBits) >>> 76) &&& 15 = 4 := by
  rw [nat_shiftRight_lor, nat_lor_land_distrib, nat_shiftRight_land, nat_land_assoc,
    show (uuidKeepMask >>> 76) &&& 15 = 0 from by decide, nat_land_zero, nat_zero_lor,
    show (uuidSetBits >>> 76) &&& 15 = 4 from by decide]

theorem uuid_forced_variant_bits (n : Nat) :
    (((n &&& uuidKeepMask) ||| uuidSetBits) >>> 62) &&& 3 = 2 := by
  rw [nat_shiftRight_lor, nat_lor_land_distrib, nat_shiftRight_land, nat_land_assoc,
    show (uuidKeepMask >>> 62) &&& 3 = 0 from by decide, nat_land_zero, nat_zero_lor,
    show (uuidSetBits >>> 62) &&& 3 = 2 from by decide]

/-- C5: `utils.uuid` is a pure deterministic function of the input bytes:
equal inputs give equal identifiers, equal canonical key strings and equal
digests, with no state, ordering or time parameter anywhere in the
signature — so two uploads of identical content derive the same key string
both times. -/
theorem uuid_deterministic :
    ∀ (b1 b2 : Bytes), b1 = b2 →
      uuid b1 = uuid b2 ∧ uuidStr b1 = uuidStr b2
        ∧ md5hexdigest b1 = md5hexdigest b2 := by
  intro b1 b2 h
  subst h
  exact ⟨rfl, rfl, rfl⟩

/-- C5 (witness): the `b"same-bytes"` scenario of the claim. -/
theorem uuid_deterministic_witness :
    uuid [115, 97, 109, 101, 45, 98, 121, 116, 101, 115]
        = uuid [115, 97, 109, 101, 45, 98, 121, 116, 101, 115]
      ∧ uuidStr [115, 97, 109, 101, 45, 98, 121, 116, 101, 115]
        = uuidStr [115, 97, 109, 101, 45, 98, 121, 116, 101, 115]
      ∧ md5hexdigest [115, 97, 109, 101, 45, 98, 121, 116, 101, 115]
        = md5hexdigest [115, 97, 109, 101, 45, 98, 121, 116, 101, 115] :=
  uuid_deterministic _ _ rfl

set_option maxRecDepth 10000 in
/-- C10: for every input the identifier has its UUID version field forced
to 4 and its variant bits forced to the RFC 4122 pattern `10`,
overwriting those bits of the MD5 digest; the hex form of the identifier
is in general not the raw MD5 hexdigest (witnessed by the empty input,
whose digest has version nibble `b`); and any two inputs whose digests
agree outside the forced bits map to the same identifier. -/
theorem uuid_version_variant_forced :
    (∀ data : Bytes, ((uuid data) >>> 76) &&& 15 = 4 ∧ ((uuid data) >>> 62) &&& 3 = 2)
    ∧ (∃ data : Bytes, uuidHex data ≠ md5hexdigest data)
    ∧ (∀ b1 b2 : Bytes,
        natOfHex (md5hexdigest b1) &&& uuidKeepMask
          = natOfHex (md5hexdigest b2) &&& uuidKeepMask →
        uuid b1 = uuid b2) := by
  refine ⟨?_, ⟨[], by decide⟩, ?_⟩
  · intro data
    unfold uuid
    rw [uuidIntFromHexV4_eq]
    exact ⟨uuid_forced_version_bits _, uuid_forced_variant_bits _⟩
  · intro b1 b2 h
    unfold uuid
    rw [uuidIntFromHexV4_eq, uuidIntFromHexV4_eq, h]

/-- C10 (witness): the congruence applied at a concrete input. -/
theorem uuid_version_variant_forced_witness : uuid [104] = uuid [104] :=
  uuid_version_variant_forced.2.2 [104] [104] rfl
